import Mathlib

/-!
# Verification of the `signac.contrib.collection` document-collection core

This file is a shallow embedding, in Lean 4, of the in-memory document
collection with a MongoDB-style query engine implemented in
`src/signac/contrib/collection.py`.  Python dictionaries are modelled as
insertion-ordered association lists, Python sets of primary ids as
`Finset String`, machine-level JSON values as the inductive type `Val`,
and fallible Python code as `Except Err`.

Modelling notes (each is also repeated at the definition it concerns):
* The JSON codec (`signac.core.json`, not part of the sources) is the
  standard-library `json` module; its encode/decode round trip is modelled
  by `normalize` (tuples become lists, everything else is unchanged) and by
  the printer `dumpsVal`.
* Python's `==` identifies `True` with `1` and compares dicts without
  regard to key order; index buckets are keyed by Python equality.  The
  model uses structural equality of `Val` instead, which distinguishes
  booleans from ints as dictionary keys; none of the verified properties
  exercises that corner.
* `$where` evaluates arbitrary Python source with `eval` and `$regex` runs
  the `re` engine; both are modelled as opaque failures (`Err.unmodeled`)
  and are not exercised by any verified property.
* Iteration order of a Python `set` is unspecified; where the source
  iterates a set the model fixes one order (`self._dirty` is carried as a
  duplicate-free list in insertion order, result slicing with a nonzero
  limit takes the sorted order), which only affects bucket-insertion order
  inside indexes and which ids survive a nonzero `limit`, never membership
  for `limit = 0`.
-/

namespace Signac

/-- A JSON-like Python value as handled by the collection: `null`, `bool`,
`int`, `str`, lists, tuples (produced by `_to_tuples`) and string-keyed
dicts in insertion order.  Floats are omitted: no verified property
involves them. -/
inductive Val where
  | null : Val
  | bool (b : Bool) : Val
  | int (n : Int) : Val
  | str (s : String) : Val
  | list (xs : List Val) : Val
  | tup (xs : List Val) : Val
  | dict (es : List (String × Val)) : Val
  deriving Repr

mutual

/-- Structural equality test for `Val` (decidable equality is derived from
it below; the automatic deriving handler does not support this nested
inductive). -/
def Val.beq : Val → Val → Bool
  | .null, .null => true
  | .bool a, .bool b => a = b
  | .int a, .int b => a = b
  | .str a, .str b => a = b
  | .list a, .list b => Val.beqList a b
  | .tup a, .tup b => Val.beqList a b
  | .dict a, .dict b => Val.beqDict a b
  | _, _ => false

def Val.beqList : List Val → List Val → Bool
  | [], [] => true
  | x :: xs, y :: ys => Val.beq x y && Val.beqList xs ys
  | _, _ => false

def Val.beqDict : List (String × Val) → List (String × Val) → Bool
  | [], [] => true
  | (k, v) :: xs, (k', v') :: ys => k = k' && Val.beq v v' && Val.beqDict xs ys
  | _, _ => false

end

mutual

theorem Val.beq_iff : ∀ a b : Val, Val.beq a b = true ↔ a = b
  | .null, b => by cases b <;> simp [Val.beq]
  | .bool a, b => by cases b <;> simp [Val.beq]
  | .int a, b => by cases b <;> simp [Val.beq]
  | .str a, b => by cases b <;> simp [Val.beq]
  | .list a, b => by
      cases b <;> simp [Val.beq]
      exact Val.beqList_iff a _
  | .tup a, b => by
      cases b <;> simp [Val.beq]
      exact Val.beqList_iff a _
  | .dict a, b => by
      cases b <;> simp [Val.beq]
      exact Val.beqDict_iff a _

theorem Val.beqList_iff : ∀ a b : List Val, Val.beqList a b = true ↔ a = b
  | [], b => by cases b <;> simp [Val.beqList]
  | x :: xs, b => by
      cases b with
      | nil => simp [Val.beqList]
      | cons y ys =>
          simp [Val.beqList, Val.beq_iff x y, Val.beqList_iff xs ys]

theorem Val.beqDict_iff :
    ∀ a b : List (String × Val), Val.beqDict a b = true ↔ a = b
  | [], b => by cases b <;> simp [Val.beqDict]
  | (k, v) :: xs, b => by
      cases b with
      | nil => simp [Val.beqDict]
      | cons y ys =>
          obtain ⟨k', v'⟩ := y
          simp [Val.beqDict, Val.beq_iff v v', Val.beqDict_iff xs ys,
            and_assoc]

end

instance : DecidableEq Val := fun a b =>
  decidable_of_iff (Val.beq a b = true) (Val.beq_iff a b)

deriving instance DecidableEq for Except

/-- A document: a string-keyed mapping in insertion order (a Python dict). -/
abbrev Doc := List (String × Val)

/-- First-match lookup in an association list (Python `d[k]` / `d.get(k)`). -/
def alistGet {β : Type} (l : List (String × β)) (k : String) : Option β :=
  match l with
  | [] => none
  | (k', v) :: rest => if k' = k then some v else alistGet rest k

/-- Python `d[k] = v`: replace the first binding of `k` in place, else append. -/
def alistSet {β : Type} (l : List (String × β)) (k : String) (v : β) :
    List (String × β) :=
  match l with
  | [] => [(k, v)]
  | (k', w) :: rest =>
      if k' = k then (k', v) :: rest else (k', w) :: alistSet rest k v

/-- Python `del d[k]`: drop the first binding of `k`. -/
def alistDel {β : Type} (l : List (String × β)) (k : String) :
    List (String × β) :=
  match l with
  | [] => []
  | (k', w) :: rest => if k' = k then rest else (k', w) :: alistDel rest k

/-- Python `d.pop(k, None)`: the removed value (if any) and the remaining dict. -/
def alistPop {β : Type} (l : List (String × β)) (k : String) :
    Option β × List (String × β) :=
  (alistGet l k, alistDel l k)

/-- Python `d.setdefault(k, v)`: returns the (possibly mutated) dict and the
value now stored under `k`.  A missing key is appended at the end, as in
Python's insertion-ordered dicts. -/
def setdefault (d : Doc) (k : String) (v : Val) : Doc × Val :=
  match alistGet d k with
  | some w => (d, w)
  | none => (d ++ [(k, v)], v)

mutual

/-- `_to_tuples` (`collection.py:64`): recursively turn every list into a
tuple; any non-list value (including dicts and existing tuples) is returned
unchanged. -/
def toTuples : Val → Val
  | .list xs => .tup (toTuplesList xs)
  | v => v

def toTuplesList : List Val → List Val
  | [] => []
  | x :: xs => toTuples x :: toTuplesList xs

end

/-- `_encode_tree` (`collection.py:75`): apply `_to_tuples` to lists, leave
everything else unchanged; this is extensionally `toTuples` because
`_to_tuples` returns non-lists unchanged as well. -/
def encodeTree (v : Val) : Val := toTuples v

mutual

/-- The JSON encode/decode round trip `json.loads(json.dumps(x))` used to
normalize documents and filters.  Modelled from the spec: `signac.core.json`
is not among the sources; per the spec it is a plain JSON codec, so the
round trip maps tuples to lists and leaves all other JSON-representable
values unchanged (dict insertion order is preserved by `json`). -/
def normalize : Val → Val
  | .null => .null
  | .bool b => .bool b
  | .int n => .int n
  | .str s => .str s
  | .list xs => .list (normalizeList xs)
  | .tup xs => .list (normalizeList xs)
  | .dict es => .dict (normalizeEntries es)

def normalizeList : List Val → List Val
  | [] => []
  | x :: xs => normalize x :: normalizeList xs

def normalizeEntries : List (String × Val) → List (String × Val)
  | [] => []
  | (k, v) :: es => (k, normalize v) :: normalizeEntries es

end

/-- Normalization of a document (a dict): pointwise on the values. -/
def normalizeDoc (d : Doc) : Doc := normalizeEntries d

/-- The error kinds surfaced by the collection, mirroring the Python
exception classes raised by `collection.py`.  `closedHandle` is the
`RuntimeError("Trying to access closed Collection")` from `_assert_open`;
`unmodeled` stands for the `$where`/`$regex` execution engines that are
outside this model (no verified property exercises them). -/
inductive Err where
  | closedHandle
  | keyError
  | valueError
  | typeError
  | attributeError
  | assertionError
  | unmodeled
  deriving Repr, DecidableEq

/-- Python `len(x)` on JSON values: defined for strings, lists, tuples and
dicts, a `TypeError` otherwise. -/
def pyLen : Val → Except Err Nat
  | .str s => .ok s.length
  | .list xs => .ok xs.length
  | .tup xs => .ok xs.length
  | .dict es => .ok es.length
  | _ => .error .typeError

/-- Numeric view of a value: Python treats `bool` as a subtype of `int`
(`True == 1`), which matters for ordering comparisons. -/
def asNum : Val → Option Int
  | .int n => some n
  | .bool b => some (if b then 1 else 0)
  | _ => none

mutual

/-- Python 3 ordering (`<`, `>`, `<=`, `>=`) on JSON values: numbers with
numbers, strings with strings, lists with lists and tuples with tuples
(lexicographically); every other combination raises `TypeError`, modelled
as `none`. -/
def pyCompare : Val → Val → Option Ordering
  | .str x, .str y => some (compare x y)
  | .tup x, .tup y => pyCompareList x y
  | .list x, .list y => pyCompareList x y
  | a, b =>
      match asNum a, asNum b with
      | some x, some y => some (compare x y)
      | _, _ => none

def pyCompareList : List Val → List Val → Option Ordering
  | [], [] => some .eq
  | [], _ :: _ => some .lt
  | _ :: _, [] => some .gt
  | x :: xs, y :: ys => if x = y then pyCompareList xs ys else pyCompare x y

end

/-- Characters of `needle` appear as a contiguous segment of the haystack
(used for Python's substring test `s in t`). -/
def charsPrefixEq : List Char → List Char → Bool
  | [], _ => true
  | _ :: _, [] => false
  | a :: as, b :: bs => a = b && charsPrefixEq as bs

def charsContainSeg (needle : List Char) : List Char → Bool
  | [] => charsPrefixEq needle []
  | c :: cs => charsPrefixEq needle (c :: cs) || charsContainSeg needle cs

def strContains (hay needle : String) : Bool :=
  charsContainSeg needle.toList hay.toList

/-- Python `key.split('.')` (string split on a single-character separator,
implemented on the character list so that proofs can evaluate it). -/
def splitDotsChars : List Char → List String
  | [] => [""]
  | ch :: cs =>
      if ch = '.' then "" :: splitDotsChars cs
      else
        match splitDotsChars cs with
        | [] => [String.singleton ch]
        | s :: rest => (String.singleton ch ++ s) :: rest

def splitDots (s : String) : List String := splitDotsChars s.toList

/-- Python `'.'.join(nodes)`. -/
def joinDots : List String → String
  | [] => ""
  | [s] => s
  | s :: rest => s ++ "." ++ joinDots rest

/-- Python `'$' in key`. -/
def hasDollar (s : String) : Bool := s.toList.contains '$'

/-- Python `op.startswith('$')`. -/
def startsDollar (s : String) : Bool :=
  match s.toList with
  | [] => false
  | ch :: _ => ch = '$'

/-- The first `n` characters of a string (Python slicing; implemented on
the character list so that proofs can evaluate it). -/
def strTake (s : String) (n : Nat) : String := ⟨s.toList.take n⟩

/-- All but the first `n` characters of a string. -/
def strDrop (s : String) (n : Nat) : String := ⟨s.toList.drop n⟩

/-- A key of a secondary index: either a canonicalized value or the
`_DictPlaceholder` sentinel recorded for mapping-valued fields. -/
inductive IKey where
  | val (v : Val)
  | placeholder
  deriving Repr, DecidableEq

/-- An index: a mapping `canonical value → set of primary ids`, in bucket
insertion order (a Python `defaultdict(set)`). -/
abbrev Index := List (IKey × Finset String)

/-- First-match lookup in an association list over an arbitrary key type
(used for `Index`, whose keys are values). -/
def kalistGet {α β : Type} [DecidableEq α] (l : List (α × β)) (k : α) :
    Option β :=
  match l with
  | [] => none
  | (k', v) :: rest => if k' = k then some v else kalistGet rest k

/-- Replace the first binding in place, else append (Python `d[k] = v`). -/
def kalistSet {α β : Type} [DecidableEq α] (l : List (α × β)) (k : α) (v : β) :
    List (α × β) :=
  match l with
  | [] => [(k, v)]
  | (k', w) :: rest =>
      if k' = k then (k', v) :: rest else (k', w) :: kalistSet rest k v

/-- `index[key].add(_id)` on a `defaultdict(set)`: add to the bucket if the
key exists, otherwise create the bucket at the end. -/
def bucketAdd (idx : Index) (k : IKey) (i : String) : Index :=
  match kalistGet idx k with
  | some s => kalistSet idx k (insert i s)
  | none => idx ++ [(k, {i})]

/-- `index[v].update(group)` in `_update_indexes`: union into the existing
bucket, or create it at the end. -/
def bucketUnionAt (idx : Index) (k : IKey) (g : Finset String) : Index :=
  match kalistGet idx k with
  | some s => kalistSet idx k (s ∪ g)
  | none => idx ++ [(k, g)]

/-- Merge a freshly built partial index into an existing one, bucket by
bucket, in the order of the partial index (`_update_indexes`, lines
297-299). -/
def mergeIndex (idx tmp : Index) : Index :=
  tmp.foldl (fun acc e => bucketUnionAt acc e.1 e.2) idx

/-- One pass of `_remove_from_indexes` over a single index: remove the id
from every bucket, then prune the buckets that are now empty. -/
def removeIdFromIndex (idx : Index) (i : String) : Index :=
  (idx.map fun e => (e.1, e.2.erase i)).filter fun e => decide (e.2 ≠ ∅)

/-- `_get_value(doc, nodes)` (`collection.py:115`): descend mappings along
the dotted path; a missing key or a non-mapping intermediate raises
`KeyError`, which `_build_index` silently skips — both are `none` here. -/
def getValue : Val → List String → Option Val
  | v, [] => some v
  | .dict es, n :: ns =>
      match alistGet es n with
      | some v => getValue v ns
      | none => none
  | _, _ :: _ => none

/-- The index keys that `_build_index` records for one document under the
dotted path `nodes`: the (canonicalized) nested resolution with mappings
replaced by the placeholder, followed by the literal flat dotted key when
the path has more than one segment (the pending-deprecation dual match).
The flat branch does not replace mappings by the placeholder; in Python a
mapping there is unhashable and `_build_index` would raise `TypeError`,
a corner no verified property reaches. -/
def docIndexKeys (nodes : List String) (doc : Doc) : List IKey :=
  (match getValue (.dict doc) nodes with
   | some (.dict _) => [IKey.placeholder]
   | some v => [IKey.val (encodeTree v)]
   | none => []) ++
  (if nodes.length > 1 then
     match alistGet doc (joinDots nodes) with
     | some v => [IKey.val (encodeTree v)]
     | none => []
   else [])

/-- The id under which `_build_index` files a document: `doc[primary_key]`.
Stored documents always carry their string id (established by
`__setitem__`), so the fallback for a missing or non-string value is never
reached from collection state; in Python it would raise `KeyError`. -/
def docId (pk : String) (doc : Doc) : String :=
  match alistGet doc pk with
  | some (.str s) => s
  | _ => ""

/-- Insert one document into an index under construction. -/
def addDocToIndex (idx : Index) (nodes : List String) (pk : String)
    (doc : Doc) : Index :=
  (docIndexKeys nodes doc).foldl (fun acc k => bucketAdd acc k (docId pk doc))
    idx

/-- `_build_index(docs, key, primary_key)` (`collection.py:111`). -/
def buildIndex (docs : List Doc) (key : String) (pk : String) : Index :=
  docs.foldl (fun acc doc => addDocToIndex acc (splitDots key) pk doc) []

mutual

/-- `_valid_filter(f, top)` (`collection.py:102`): mappings are checked
recursively on their values with `top := false`; a list is valid exactly
when it is not at the top; everything else is valid.  Note that list
elements are not recursed into. -/
def validFilter : Val → Bool → Bool
  | .dict es, _ => validFilterEntries es
  | .list _, top => !top
  | _, _ => true

def validFilterEntries : List (String × Val) → Bool
  | [] => true
  | (_, v) :: es => validFilter v false && validFilterEntries es

end

/-- `Collection._check_filter` (`collection.py:443`): `None` is accepted,
otherwise the filter must satisfy `_valid_filter` or a `ValueError` is
raised. -/
def checkFilter : Option Val → Except Err Unit
  | none => .ok ()
  | some f => if validFilter f true then .ok () else .error .valueError

mutual

/-- `_traverse_tree` (`collection.py:82`) below a top-level key: values are
encoded (lists to tuples) before inspection; non-empty mappings are
descended with dot-extended keys, an empty mapping at a non-root position
is emitted as `(key, {})`, and any other value is emitted as a leaf. -/
def traverseTreeK : String → Val → List (String × Val)
  | key, .dict [] => [(key, .dict [])]
  | key, .dict (e :: es) => traverseEntriesK key (e :: es)
  | key, v => [(key, encodeTree v)]

def traverseEntriesK : String → List (String × Val) → List (String × Val)
  | _, [] => []
  | key, (k, v) :: es =>
      traverseTreeK (key ++ "." ++ k) v ++ traverseEntriesK key es

end

/-- `_traverse_filter` over the root mapping (`key = None`): each top-level
entry starts its own dotted key. -/
def traverseFilterEntries : List (String × Val) → List (String × Val)
  | [] => []
  | (k, v) :: es => traverseTreeK k v ++ traverseFilterEntries es

/-- `_INDEX_OPERATORS` (`collection.py:38`). -/
def INDEX_OPERATORS : List String :=
  ["$eq", "$gt", "$gte", "$lt", "$lte", "$ne",
   "$in", "$nin", "$regex", "$type", "$where"]

/-- The type names accepted by `$type` (`_TYPES`, `collection.py:41`). -/
def typeNames : List String := ["int", "float", "bool", "str", "list", "null"]

/-- `isinstance(value, _TYPES[name])` on index keys.  Python's `bool` is a
subclass of `int`, so booleans also match `"int"`; `"list"` maps to
`tuple` because indexed sequences are canonicalized; `"float"` never
matches (the model carries no floats); the placeholder class matches no
type. -/
def typeMatches (k : IKey) (name : String) : Bool :=
  match k with
  | .placeholder => false
  | .val v =>
      match name, v with
      | "int", .int _ => true
      | "int", .bool _ => true
      | "bool", .bool _ => true
      | "str", .str _ => true
      | "list", .tup _ => true
      | "null", .null => true
      | _, _ => false

/-- Ordering comparison of an index key with an operator argument; the
`_DictPlaceholder` class is not orderable against anything. -/
def iKeyCompare : IKey → Val → Option Ordering
  | .val v, arg => pyCompare v arg
  | .placeholder, _ => none

/-- Python `value in argument` for the `$in`/`$nin` operators: element
membership for sequences, substring for strings (left operand must be a
string), key membership for dicts, `TypeError` otherwise. -/
def pyIn (k : IKey) (arg : Val) : Except Err Bool :=
  match arg with
  | .list xs => .ok (match k with | .val v => xs.contains v | .placeholder => false)
  | .tup xs => .ok (match k with | .val v => xs.contains v | .placeholder => false)
  | .str s =>
      match k with
      | .val (.str t) => .ok (strContains s t)
      | _ => .error .typeError
  | .dict es => .ok (match k with | .val (.str t) => (alistGet es t).isSome | _ => false)
  | _ => .error .typeError

/-- The truth of `value <op> argument` for one of `$gt`, `$gte`, `$lt`,
`$lte`, given the comparison outcome. -/
def cmpTest (op : String) (o : Ordering) : Bool :=
  match op with
  | "$gt" => o = .gt
  | "$gte" => o ≠ .lt
  | "$lt" => o = .lt
  | "$lte" => o ≠ .gt
  | _ => false

/-- The per-key predicate dispatched by `_find_with_index_operator`
(`collection.py:151`).  `$regex` on a string key and `$where` execute the
`re`/`eval` engines, which are outside the model. -/
def opApply (op : String) (k : IKey) (arg : Val) : Except Err Bool :=
  if op = "$in" then pyIn k arg
  else if op = "$nin" then (pyIn k arg).map (! ·)
  else if op = "$regex" then
    match k with
    | .val (.str _) => .error .unmodeled
    | _ => .ok false
  else if op = "$type" then
    match arg with
    | .str name =>
        if typeNames.contains name then .ok (typeMatches k name)
        else .error .valueError
    | _ => .error .valueError
  else if op = "$where" then .error .unmodeled
  else if op = "$eq" then
    .ok (match k with | .val v => v = arg | .placeholder => false)
  else if op = "$ne" then
    .ok (match k with | .val v => v ≠ arg | .placeholder => true)
  else
    -- `$gt`, `$gte`, `$lt`, `$lte` via `getattr(operator, ...)`: Python
    -- raises `TypeError` when the two values are not orderable.
    match iKeyCompare k arg with
    | some o => .ok (cmpTest op o)
    | none => .error .typeError

/-- The scan `for value in index: if op(value, argument):
matches.update(index[value])`, in bucket order; the first failing
comparison aborts the whole lookup, as in Python. -/
def scanIndex (idx : Index) (op : String) (arg : Val) :
    Except Err (Finset String) :=
  match idx with
  | [] => .ok ∅
  | (k, g) :: rest => do
      let b ← opApply op k arg
      let r ← scanIndex rest op arg
      .ok (if b then g ∪ r else r)

/-- `_find_with_index_operator(index, op, argument)` (`collection.py:151`). -/
def findWithIndexOperator (idx : Index) (op : String) (arg : Val) :
    Except Err (Finset String) :=
  scanIndex idx op arg

/-- `_check_logical_operator_argument` (`collection.py:183`): the argument
must be a non-empty list. -/
def checkLogicalArg (arg : Val) : Except Err (List Val) :=
  match arg with
  | .list [] => .error .valueError
  | .list fs => .ok fs
  | _ => .error .valueError

/-- The state of the backing file: its text and the stream position.
Python `a+`-mode files and `io.StringIO` both truncate at the current
position and (in the flows exercised here) write at the end of the
content. -/
structure FileState where
  content : String
  pos : Nat
  deriving Repr, DecidableEq

/-- `file.truncate()` with no argument: cut the content at the current
position; the position is unchanged. -/
def FileState.truncateHere (f : FileState) : FileState :=
  { f with content := strTake f.content f.pos }

/-- `file.write(s)`: overwrite at the current position (for the flows in
this model the position is at or beyond the end, so this appends). -/
def FileState.write (f : FileState) (s : String) : FileState :=
  { content := strTake f.content f.pos ++ s ++
      strDrop f.content (f.pos + s.length),
    pos := f.pos + s.length }

/-- The collection state: primary-key name, the ordered document store
(`none` once closed, mirroring `self._docs = None`), the dirty-id set, the
secondary indexes keyed by dotted path, the `_requires_flush` flag, and
the backing file (`none` once closed). -/
structure Coll where
  pk : String
  docs? : Option (List (String × Doc))
  dirty : List String
  indexes : List (String × Index)
  requiresFlush : Bool
  file? : Option FileState
  deriving DecidableEq

/-- `self._dirty.add(_id)`: the dirty set is modelled as a duplicate-free
list (Python `set` iteration order is unspecified; only membership ever
matters). -/
def dirtyAdd (dirty : List String) (i : String) : List String :=
  if i ∈ dirty then dirty else dirty ++ [i]

/-- A fresh in-memory collection: `Collection()` binds an empty
`io.StringIO`. -/
def Coll.empty (pk : String) : Coll :=
  { pk := pk, docs? := some [], dirty := [], indexes := [],
    requiresFlush := false, file? := some ⟨"", 0⟩ }

def Coll.docsList (c : Coll) : List (String × Doc) := c.docs?.getD []

/-- The ids in insertion order (`self._docs.keys()`). -/
def Coll.idsList (c : Coll) : List String := c.docsList.map (·.1)

/-- `set(self.ids)`. -/
def Coll.idsSet (c : Coll) : Finset String := c.idsList.toFinset

/-- `_assert_open` (`collection.py:273`): `RuntimeError` once `_docs` is
`None`. -/
def Coll.assertOpen (c : Coll) : Except Err (List (String × Doc)) :=
  match c.docs? with
  | some ds => .ok ds
  | none => .error .closedHandle

/-- `_remove_from_indexes(_id)` (`collection.py:278`). -/
def Coll.removeFromIndexes (c : Coll) (i : String) : Coll :=
  { c with indexes := c.indexes.map fun e => (e.1, removeIdFromIndex e.2 i) }

/-- `_update_indexes` (`collection.py:291`): when the dirty set is
non-empty, scrub every dirty id from every index, re-index the dirty
documents against every known index, and clear the dirty set.  Python
iterates the dirty set in unspecified order; the model carries it as a
duplicate-free list and iterates it in insertion order, which can only
affect bucket insertion order, never bucket membership.  All API paths
reach this code with the collection open. -/
def Coll.updateIndexes (c : Coll) : Coll :=
  match c.docs? with
  | none => c
  | some ds =>
      if c.dirty = [] then c
      else
        let idxs1 := c.indexes.map fun e => (e.1, c.dirty.foldl removeIdFromIndex e.2)
        let dirtyDocs := c.dirty.filterMap fun i => alistGet ds i
        let idxs2 := idxs1.map fun e =>
          (e.1, mergeIndex e.2 (buildIndex dirtyDocs e.1 c.pk))
        { c with indexes := idxs2, dirty := [] }

/-- `_build_index(key)` on the collection (`collection.py:302`): build the
index for `key` over all documents and install it. -/
def Coll.buildIdx (c : Coll) (key : String) : Coll :=
  { c with indexes :=
      alistSet c.indexes key (buildIndex (c.docsList.map (·.2)) key c.pk) }

/-- `index(key, build)` (`collection.py:307`): the primary key has no
index; a missing index is built when `build` is true (`self._docs.values()`
fails with `AttributeError` on a closed collection) and is a `KeyError`
otherwise; dirty state is always refreshed before returning. -/
def Coll.indexMethod (c : Coll) (key : String) (build : Bool) :
    Except Err (Coll × Index) :=
  if key = c.pk then .error .keyError
  else
    match alistGet c.indexes key with
    | some _ =>
        let c1 := c.updateIndexes
        .ok (c1, (alistGet c1.indexes key).getD [])
    | none =>
        if build then
          match c.docs? with
          | none => .error .attributeError
          | some _ =>
              let c1 := (c.buildIdx key).updateIndexes
              .ok (c1, (alistGet c1.indexes key).getD [])
        else .error .keyError

/-- `__contains__` (`collection.py:367`): note the missing `_assert_open`;
on a closed collection `_id in None` raises `TypeError`. -/
def Coll.contains (c : Coll) (i : String) : Except Err Bool :=
  match c.docs? with
  | none => .error .typeError
  | some ds => .ok (alistGet ds i).isSome

/-- `__len__` (`collection.py:363`). -/
def Coll.length (c : Coll) : Except Err Nat := do
  let ds ← c.assertOpen
  .ok ds.length

/-- `__getitem__` (`collection.py:370`): `self._docs[_id].copy()`.  The
returned value is value-equal to the stored document; the aliasing
behaviour of the shallow `.copy()` is modelled separately by the heap
development below. -/
def Coll.getItem (c : Coll) (i : String) : Except Err Doc := do
  let ds ← c.assertOpen
  match alistGet ds i with
  | some d => .ok d
  | none => .error .keyError

/-- `__setitem__` (`collection.py:374`): assert open, default the primary
key of the caller's document to `_id` (mutating the caller's dict), check
it matches, store the JSON-normalized document, mark dirty and require a
flush.  The `isinstance(_id, str)` guard is represented by the type of
`i`.  Returns the new state and the caller's (possibly mutated)
document. -/
def Coll.setItem (c : Coll) (i : String) (doc : Doc) :
    Except Err (Coll × Doc) := do
  let ds ← c.assertOpen
  let p := setdefault doc c.pk (.str i)
  if p.2 = .str i then
    .ok ({ c with docs? := some (alistSet ds i (normalizeDoc p.1)),
                  dirty := dirtyAdd c.dirty i,
                  requiresFlush := true }, p.1)
  else .error .valueError

/-- `insert_one(doc)` (`collection.py:389`): assert open, default the
primary key to a fresh UUID string (the `uuid` argument stands for the
value `str(uuid4())` would produce), then store via `__setitem__`.  A
non-string pre-existing primary-key value fails the `isinstance` check
inside `__setitem__`.  Returns the new state, the id, and the caller's
(possibly mutated) document. -/
def Coll.insertOne (c : Coll) (doc : Doc) (uuid : String) :
    Except Err (Coll × String × Doc) := do
  let _ ← c.assertOpen
  let p := setdefault doc c.pk (.str uuid)
  match p.2 with
  | .str i => do
      let (c1, doc2) ← c.setItem i p.1
      .ok (c1, i, doc2)
  | _ => .error .typeError

/-- `__delitem__` (`collection.py:413`): remove the document, scrub the id
from all indexes, drop it from the dirty set, require a flush. -/
def Coll.delItem (c : Coll) (i : String) : Except Err Coll := do
  let ds ← c.assertOpen
  if (alistGet ds i).isSome then
    let c1 := Coll.removeFromIndexes { c with docs? := some (alistDel ds i) } i
    .ok { c1 with dirty := c1.dirty.erase i, requiresFlush := true }
  else .error .keyError

/-- `clear` (`collection.py:423`): note the missing `_assert_open`; on a
closed collection `None.clear()` raises `AttributeError`. -/
def Coll.clear (c : Coll) : Except Err Coll :=
  match c.docs? with
  | none => .error .attributeError
  | some _ =>
      .ok { c with docs? := some [], indexes := [], dirty := [],
                   requiresFlush := true }

/-- `update(docs)` (`collection.py:430`): for each document, default the
primary key to a fresh UUID (supplied as the paired oracle string) and
upsert through `__setitem__`.  Returns the new state and the callers'
(possibly mutated) documents. -/
def Coll.update (c : Coll) (docs : List (Doc × String)) :
    Except Err (Coll × List Doc) :=
  match docs with
  | [] => .ok (c, [])
  | (doc, uuid) :: rest => do
      let p := setdefault doc c.pk (.str uuid)
      let _ ← c.assertOpen
      match p.2 with
      | .str i => do
          let (c1, doc2) ← c.setItem i p.1
          let (c2, docs2) ← c1.update rest
          .ok (c2, doc2 :: docs2)
      | _ => .error .typeError

theorem sizeOf_alistGet_lt {β : Type} [SizeOf β] {l : List (String × β)}
    {k : String} {v : β} (h : alistGet l k = some v) : sizeOf v < sizeOf l := by
  induction l with
  | nil => simp [alistGet] at h
  | cons e rest ih =>
      obtain ⟨k', w⟩ := e
      by_cases hk : k' = k
      · simp only [alistGet, hk, if_pos, Option.some.injEq] at h
        subst h
        simp only [List.cons.sizeOf_spec, Prod.mk.sizeOf_spec]
        omega
      · simp only [alistGet, hk, if_neg, ite_false] at h
        have := ih h
        simp only [List.cons.sizeOf_spec, Prod.mk.sizeOf_spec]
        omega

theorem sizeOf_alistDel_le {β : Type} [SizeOf β] (l : List (String × β))
    (k : String) : sizeOf (alistDel l k) ≤ sizeOf l := by
  induction l with
  | nil => simp [alistDel]
  | cons e rest ih =>
      obtain ⟨k', w⟩ := e
      by_cases hk : k' = k
      · simp only [alistDel, hk, if_pos]
        simp only [List.cons.sizeOf_spec, Prod.mk.sizeOf_spec]
        omega
      · simp only [alistDel, hk, if_neg, ite_false]
        simp only [List.cons.sizeOf_spec, Prod.mk.sizeOf_spec]
        omega

/-- `_reduce_result` (`collection.py:482`): identity on the first match,
set intersection afterwards. -/
def reduceResult (r : Option (Finset String)) (m : Finset String) :
    Finset String :=
  match r with
  | none => m
  | some s => s ∩ m

/-- The union of all buckets of an index (`{elem for elems in
index.values() for elem in elems}` in the `$exists` branch). -/
def bucketsUnion (idx : Index) : Finset String :=
  idx.foldl (fun s e => s ∪ e.2) ∅

/-- `_find_expression(key, value)` (`collection.py:450`): operator keys are
validated and dispatched (index operators through the scan, `$exists`
through the bucket union); plain keys are an equality lookup on the
index.  The state is threaded because `self.index(key, build=True)` builds
missing indexes and refreshes dirty state. -/
def findExpression (c : Coll) (key : String) (v : Val) :
    Except Err (Coll × Finset String) :=
  if hasDollar key then
    if key.toList.count '$' > 1 then .error .keyError
    else
      let nodes := splitDots key
      let op := nodes.getLastD ""
      if ¬ startsDollar op then .error .keyError
      else
        let key1 := joinDots nodes.dropLast
        if INDEX_OPERATORS.contains op then do
          let (c1, idx) ← c.indexMethod key1 true
          let m ← findWithIndexOperator idx op v
          .ok (c1, m)
        else if op = "$exists" then
          match v with
          | .bool b => do
              let (c1, idx) ← c.indexMethod key1 true
              let m := bucketsUnion idx
              .ok (c1, if b then m else c1.idsSet \ m)
          | _ => .error .valueError
        else .error .keyError
  else do
    let (c1, idx) ← c.indexMethod key true
    match v with
    | .dict _ => .error .typeError
    | .list _ => .error .typeError
    | _ => .ok (c1, (kalistGet idx (.val v)).getD ∅)

/-- The outcome of scanning the non-logical `(key, value)` pairs of a
filter: either the `return set()` short circuit fired (in which case the
logical operators are never evaluated), or the accumulated reduction
(`None` when no pair constrained the result). -/
inductive PairsOut where
  | empty : PairsOut
  | acc (r : Option (Finset String)) : PairsOut
  deriving DecidableEq

/-- The loop over `_traverse_filter(expr)` in `_find_result`
(`collection.py:500`): reduce each expression's matches into the result
and short-circuit as soon as it is empty. -/
def findPairs (c : Coll) (ps : List (String × Val))
    (r : Option (Finset String)) : Except Err (Coll × PairsOut) :=
  match ps with
  | [] => .ok (c, .acc r)
  | (k, v) :: rest => do
      let (c1, m) ← findExpression c k v
      let r1 := reduceResult r m
      if r1 = ∅ then .ok (c1, .empty) else findPairs c1 rest (some r1)

/-- The primary-key short circuit of `_find_result` (`collection.py:490`):
`expr.pop(self.primary_key, None)` followed by `if _id is not None and
_id in self: result = _reduce_result(result, {_id})`.  A popped JSON
`null` behaves like an absent key (but is still removed); an unhashable
value raises `TypeError` in the membership test; a hashable non-string is
never a key.  Note that an id that is *not* contained leaves the result
untouched instead of forcing it empty. -/
def pkShortCircuit (c : Coll) (idv? : Option Val) :
    Except Err (Option (Finset String)) :=
  match idv? with
  | none => .ok none
  | some .null => .ok none
  | some (.dict _) => .error .typeError
  | some (.list _) => .error .typeError
  | some (.str s) => .ok (if s ∈ c.idsSet then some {s} else none)
  | some _ => .ok none

theorem sizeOf_checkLogicalArg_lt {ov : Val} {fs : List Val}
    (h : checkLogicalArg ov = .ok fs) : sizeOf fs < sizeOf ov := by
  cases ov <;> simp [checkLogicalArg] at h
  case list xs =>
    cases xs with
    | nil => simp [checkLogicalArg] at h
    | cons x rest =>
        simp [checkLogicalArg] at h
        subst h
        simp only [Val.list.sizeOf_spec]
        omega

theorem sizeOf_alistGet_le {β : Type} [SizeOf β] (l : List (String × β))
    (k : String) : sizeOf (alistGet l k) ≤ sizeOf l := by
  cases hg : alistGet l k with
  | none =>
      simp only [Option.none.sizeOf_spec]
      cases l with
      | nil => simp
      | cons e rest =>
          simp only [List.cons.sizeOf_spec]
          omega
  | some v =>
      have := sizeOf_alistGet_lt hg
      simp only [Option.some.sizeOf_spec]
      omega

/-- The residue of a filter mapping after `_find_result` has popped the
primary key, `$or`, `$and` and `$not`, in that order. -/
def popResidue (pk : String) (es : List (String × Val)) :
    List (String × Val) :=
  alistDel (alistDel (alistDel (alistDel es pk) "$or") "$and") "$not"

mutual

/-- `_find_result(expr)` (`collection.py:475`): empty expressions match
every id; otherwise pop the primary key and the logical operators, reduce
over the remaining field expressions (with short circuit), then apply
`$not` (complement), `$and` (intersections) and `$or` (union of
sub-results); the final `assert result is not None` fails when nothing
constrained the result, e.g. a filter that only named an absent primary
id.  Non-mapping expressions of non-zero length fail on `expr.pop`
(`TypeError` for lists, `AttributeError` for strings and tuples). -/
def findResult (c : Coll) (f : Val) : Except Err (Coll × Finset String) := do
  let n ← pyLen f
  if n = 0 then .ok (c, c.idsSet)
  else
    match f with
    | .dict es => do
        let r0 ← pkShortCircuit c (alistGet es c.pk)
        let (c1, out) ← findPairs c (traverseFilterEntries (popResidue c.pk es)) r0
        match out with
        | .empty => .ok (c1, (∅ : Finset String))
        | .acc racc => do
            let (c2, rn) ← notPhase c1 racc
              (alistGet (alistDel (alistDel (alistDel es c.pk) "$or") "$and") "$not")
            let (c3, ra) ← andPhase c2 rn
              (alistGet (alistDel (alistDel es c.pk) "$or") "$and")
            let (c4, ro) ← orPhase c3 ra (alistGet (alistDel es c.pk) "$or")
            match ro with
            | some s => .ok (c4, s)
            | none => .error .assertionError
    | .list _ => .error .typeError
    | _ => .error .attributeError
termination_by sizeOf f
decreasing_by
  · rename_i es
    have h1 := sizeOf_alistGet_le
      (alistDel (alistDel (alistDel es c.pk) "$or") "$and") "$not"
    have h2 := sizeOf_alistDel_le (alistDel (alistDel es c.pk) "$or") "$and"
    have h3 := sizeOf_alistDel_le (alistDel es c.pk) "$or"
    have h4 := sizeOf_alistDel_le es c.pk
    have h5 : 1 ≤ sizeOf es := by
      cases es with
      | nil => simp
      | cons e rest => simp only [List.cons.sizeOf_spec]; omega
    simp only [Val.dict.sizeOf_spec]
    omega
  · rename_i es
    have h1 := sizeOf_alistGet_le (alistDel (alistDel es c.pk) "$or") "$and"
    have h3 := sizeOf_alistDel_le (alistDel es c.pk) "$or"
    have h4 := sizeOf_alistDel_le es c.pk
    have h5 : 1 ≤ sizeOf es := by
      cases es with
      | nil => simp
      | cons e rest => simp only [List.cons.sizeOf_spec]; omega
    simp only [Val.dict.sizeOf_spec]
    omega
  · rename_i es
    have h1 := sizeOf_alistGet_le (alistDel es c.pk) "$or"
    have h4 := sizeOf_alistDel_le es c.pk
    have h5 : 1 ≤ sizeOf es := by
      cases es with
      | nil => simp
      | cons e rest => simp only [List.cons.sizeOf_spec]; omega
    simp only [Val.dict.sizeOf_spec]
    omega

/-- The `$not` phase of `_find_result`: a popped sub-filter is evaluated
and the complement of its matches is intersected into the result; a popped
JSON `null` (like an absent key) is ignored. -/
def notPhase (c : Coll) (r : Option (Finset String)) (nv : Option Val) :
    Except Err (Coll × Option (Finset String)) :=
  match nv with
  | none => .ok (c, r)
  | some .null => .ok (c, r)
  | some nf => do
      let (c2, nm) ← findResult c nf
      .ok (c2, some (reduceResult r (c2.idsSet \ nm)))
termination_by sizeOf nv
decreasing_by
  simp only [Option.some.sizeOf_spec]
  omega

/-- The `$and` phase of `_find_result`: the argument must be a non-empty
list; every sub-result is intersected into the result in order. -/
def andPhase (c : Coll) (r : Option (Finset String)) (av : Option Val) :
    Except Err (Coll × Option (Finset String)) :=
  match av with
  | none => .ok (c, r)
  | some .null => .ok (c, r)
  | some v =>
      match ha : checkLogicalArg v with
      | .error e => .error e
      | .ok fs => do
          let (c2, rs) ← findResultList c fs
          .ok (c2, rs.foldl (fun r m => some (reduceResult r m)) r)
termination_by sizeOf av
decreasing_by
  have := sizeOf_checkLogicalArg_lt ha
  simp only [Option.some.sizeOf_spec]
  omega

/-- The `$or` phase of `_find_result`: the union of the sub-results is
intersected into the result. -/
def orPhase (c : Coll) (r : Option (Finset String)) (ov : Option Val) :
    Except Err (Coll × Option (Finset String)) :=
  match ov with
  | none => .ok (c, r)
  | some .null => .ok (c, r)
  | some v =>
      match ho : checkLogicalArg v with
      | .error e => .error e
      | .ok fs => do
          let (c2, rs) ← findResultList c fs
          .ok (c2, some (reduceResult r (rs.foldl (· ∪ ·) ∅)))
termination_by sizeOf ov
decreasing_by
  have := sizeOf_checkLogicalArg_lt ho
  simp only [Option.some.sizeOf_spec]
  omega

/-- Sequential evaluation of logical sub-filters (`for expr_ in ...`),
threading the collection state and collecting each sub-result. -/
def findResultList (c : Coll) (fs : List Val) :
    Except Err (Coll × List (Finset String)) :=
  match fs with
  | [] => .ok (c, [])
  | g :: rest => do
      let (c1, m) ← findResult c g
      let (c2, ms) ← findResultList c1 rest
      .ok (c2, m :: ms)
termination_by sizeOf fs
decreasing_by
  · simp only [List.cons.sizeOf_spec]
    omega
  · simp only [List.cons.sizeOf_spec]
    omega

end

/-- `islice(result, limit if limit else None)` over a result that Python
holds as a `set`: a zero limit keeps everything; a nonzero limit keeps
`limit` elements in unspecified set order, fixed here as the sorted
order. -/
def limitResult (r : Finset String) (limit : Nat) : Finset String :=
  if limit = 0 then r else ((r.sort (· ≤ ·)).take limit).toFinset

/-- `_find(filter, limit)` (`collection.py:525`): assert open, normalize
the filter by a JSON round trip, validate it, answer trivial filters from
the id list in insertion order, otherwise run `_find_result` and slice. -/
def Coll.findIds (c : Coll) (filter : Option Val) (limit : Nat) :
    Except Err (Coll × Finset String) := do
  let _ ← c.assertOpen
  let nf := filter.map normalize
  let _ ← checkFilter nf
  match nf with
  | none => .ok (c, ((if limit = 0 then c.idsList else c.idsList.take limit).toFinset))
  | some f => do
      let n ← pyLen f
      if n = 0 then
        .ok (c, ((if limit = 0 then c.idsList else c.idsList.take limit).toFinset))
      else do
        let (c1, r) ← findResult c f
        .ok (c1, limitResult r limit)

/-- One character of a JSON string literal, escaped as `json.dumps` does
(quote, backslash and the common control characters; other characters are
emitted verbatim). -/
def escChar (ch : Char) : String :=
  if ch = '"' then "\\\""
  else if ch = '\\' then "\\\\"
  else if ch = '\n' then "\\n"
  else if ch = '\t' then "\\t"
  else if ch = '\r' then "\\r"
  else String.singleton ch

def escChars : List Char → String
  | [] => ""
  | ch :: rest => escChar ch ++ escChars rest

mutual

/-- `json.dumps` with the default separators, as used by `dump`.  Modelled
from the spec: the codec module is not among the sources; the spec pins the
format to one JSON object per line.  Tuples serialize as arrays. -/
def dumpsVal : Val → String
  | .null => "null"
  | .bool b => if b then "true" else "false"
  | .int n => toString n
  | .str s => "\"" ++ escChars s.toList ++ "\""
  | .list xs => "[" ++ dumpsList xs ++ "]"
  | .tup xs => "[" ++ dumpsList xs ++ "]"
  | .dict es => "\x7b" ++ dumpsEntries es ++ "\x7d"

def dumpsList : List Val → String
  | [] => ""
  | [x] => dumpsVal x
  | x :: xs => dumpsVal x ++ ", " ++ dumpsList xs

def dumpsEntries : List (String × Val) → String
  | [] => ""
  | [(k, v)] => "\"" ++ escChars k.toList ++ "\": " ++ dumpsVal v
  | (k, v) :: es =>
      "\"" ++ escChars k.toList ++ "\": " ++ dumpsVal v ++ ", " ++
        dumpsEntries es

end

/-- The NDJSON dump of a document list in order: one JSON object per line,
each terminated by a newline (`dump`, `collection.py:733`). -/
def ndjson (docs : List Doc) : String :=
  String.join (docs.map fun d => dumpsVal (.dict d) ++ "\n")

/-- `dump(file)` (`collection.py:733`), as the text it writes. -/
def Coll.dumpString (c : Coll) : Except Err String := do
  let ds ← c.assertOpen
  .ok (ndjson (ds.map (·.2)))

/-- `flush` (`collection.py:801`): when a flush is required, truncate the
backing file **at the current stream position** (`self._file.truncate()`
is called with no argument and no preceding seek), write the dump there,
and clear `_requires_flush`. -/
def Coll.flush (c : Coll) : Except Err Coll := do
  let ds ← c.assertOpen
  if c.requiresFlush then
    match c.file? with
    | none => .ok { c with requiresFlush := false }
    | some f =>
        let f1 := f.truncateHere
        let f2 := f1.write (ndjson (ds.map (·.2)))
        .ok { c with file? := some f2, requiresFlush := false }
  else .ok c

/-- `close` (`collection.py:823`): a no-op once the file is gone (second
close); otherwise flush, then release the file, clear the indexes and set
`_docs = None`.  The `finally` clearing on a failed flush concerns only
states unreachable through the API (`_docs is None` with `_file` still
set) and is not modelled beyond the error. -/
def Coll.close (c : Coll) : Except Err Coll :=
  match c.file? with
  | none => .ok c
  | some _ =>
      match c.flush with
      | .ok c1 => .ok { c1 with file? := none, indexes := [], docs? := none }
      | .error e => .error e

/-- The initialization loop of `Collection.__init__` over a document
iterable: `self[doc[self.primary_key]] = doc` for each document
(`KeyError` when the primary key is missing, `TypeError` from
`__setitem__` when its value is not a string). -/
def Coll.setMany (c : Coll) (docs : List Doc) : Except Err Coll :=
  match docs with
  | [] => .ok c
  | doc :: rest => do
      match alistGet doc c.pk with
      | some (.str i) => do
          let (c1, _) ← c.setItem i doc
          c1.setMany rest
      | some _ => .error .typeError
      | none => .error .keyError

/-- `Collection(docs=...)` (`collection.py:260`): insert every document,
reset `_requires_flush` (not needed after the initial read) and refresh
the indexes. -/
def Coll.fromDocs (pk : String) (docs : List Doc) : Except Err Coll := do
  let c1 ← (Coll.empty pk).setMany docs
  .ok (Coll.updateIndexes { c1 with requiresFlush := false })

/-- `Collection.open(filename)` for an existing file (`collection.py:753`):
the file is opened in `a+` mode, `seek(0)` rewinds it, and `_open` reads
every line, leaving the stream position at the end of the content; the
documents parsed from the lines are supplied as `docs` (the JSON parser is
not modelled; instantiations supply `docs` consistent with `content`). -/
def Coll.openFromFile (pk : String) (content : String) (docs : List Doc) :
    Except Err Coll := do
  let c ← Coll.fromDocs pk docs
  .ok { c with file? := some ⟨content, content.length⟩ }

/-- `replace_one(filter, replacement, upsert)` (`collection.py:692`).
When the filter is exactly `{primary_key: id}`, the document is replaced
in place (or upserted) **and the function falls through without a
`return`, yielding `None`**; otherwise the first match found by `_find`
is replaced and its id returned, and with no match an upsert inserts the
replacement and returns the new id.  Python iterates the result set in
unspecified order; the model picks the least id.  The `uuid` argument
stands for the `str(uuid4())` an upserting insert would draw. -/
def Coll.replaceOne (c : Coll) (filter : Val) (repl : Doc) (upsert : Bool)
    (uuid : String) : Except Err (Coll × Option String) := do
  let ds ← c.assertOpen
  let flen ← pyLen filter
  let pkIn : Bool :=
    match filter with
    | .dict es => (alistGet es c.pk).isSome
    | .str s => strContains s c.pk
    | .list xs => xs.contains (.str c.pk)
    | .tup xs => xs.contains (.str c.pk)
    | _ => false
  if flen = 1 ∧ pkIn then
    match filter with
    | .dict es =>
        match alistGet es c.pk with
        | some (.str i) =>
            if upsert ∨ (alistGet ds i).isSome then do
              let (c1, _) ← c.setItem i repl
              .ok (c1, none)
            else .ok (c, none)
        | some v =>
            if upsert then .error .typeError
            else
              match v with
              | .dict _ => .error .typeError
              | .list _ => .error .typeError
              | _ => .ok (c, none)
        | none => .ok (c, none)
    | _ => .error .typeError
  else do
    let (c1, r) ← c.findIds (some filter) 0
    match (r.sort (· ≤ ·)).head? with
    | some i => do
        let (c2, _) ← c1.setItem i repl
        .ok (c2, some i)
    | none =>
        if upsert then do
          let (c2, i, _) ← c1.insertOne repl uuid
          .ok (c2, some i)
        else .ok (c1, none)

/-!
## Aliasing model for `__getitem__`'s `.copy()`

`__getitem__` returns `self._docs[_id].copy()`: a **new top-level dict
object whose values are the same objects** as the stored document's.  A
heap of addressed objects makes the sharing observable: `HObj` is one
Python object (a scalar, or a list/dict of addresses), a document is an
address, and `renderObj` reads off the JSON value reachable from an
address (with fuel, since an arbitrary heap may contain cycles).  The
shallow copy allocates a fresh address holding the same entry list. -/

inductive HObj where
  | scalarO (v : Val)
  | listO (elems : List Nat)
  | dictO (entries : List (String × Nat))
  deriving Repr, DecidableEq

abbrev Heap := List (Nat × HObj)

mutual

/-- The JSON value reachable from address `a` (`none` when the fuel runs
out or an address dangles). -/
def renderObj (h : Heap) : Nat → Nat → Option Val
  | 0, _ => none
  | fuel + 1, a =>
      match kalistGet h a with
      | none => none
      | some (.scalarO v) => some v
      | some (.listO es) => (renderAddrs h fuel es).map Val.list
      | some (.dictO es) => (renderAddrEntries h fuel es).map Val.dict

def renderAddrs (h : Heap) : Nat → List Nat → Option (List Val)
  | _, [] => some []
  | fuel, a :: as => do
      let v ← renderObj h fuel a
      let vs ← renderAddrs h fuel as
      some (v :: vs)

def renderAddrEntries (h : Heap) :
    Nat → List (String × Nat) → Option (List (String × Val))
  | _, [] => some []
  | fuel, (k, a) :: es => do
      let v ← renderObj h fuel a
      let vs ← renderAddrEntries h fuel es
      some ((k, v) :: vs)

end

/-- `dict.copy()` for a document object at address `a`: allocate the entry
list at the fresh address `cNew`; the entry addresses are shared. -/
def shallowCopyAt (h : Heap) (a cNew : Nat) : Heap :=
  match kalistGet h a with
  | some (.dictO es) => h ++ [(cNew, .dictO es)]
  | _ => h

/-- In-place mutation of the object at an address (a Python statement like
`obj[k] = v` re-binding through a reference). -/
def heapSet (h : Heap) (a : Nat) (o : HObj) : Heap := kalistSet h a o

/-!
## Concrete states used to instantiate the verified properties
-/

/-- An open collection holding the single document
`{"_id": "a", "k": 1}`. -/
def oneDocColl : Coll :=
  { pk := "_id",
    docs? := some [("a", [("_id", .str "a"), ("k", .int 1)])],
    dirty := [], indexes := [], requiresFlush := false,
    file? := some ⟨"", 0⟩ }

/-- The documents initially on disk in the flush scenario. -/
def c3Docs0 : List Doc := [[("_id", .str "a")]]

/-- Open a collection from a file holding `c3Docs0` as NDJSON, insert one
new document (making a flush necessary) and flush; the run yields the
final state of the backing file. -/
def c3Run : Except Err (Option FileState) := do
  let c1 ← Coll.openFromFile "_id" (ndjson c3Docs0) c3Docs0
  let (c2, _, _) ← c1.insertOne [("k", .int 1)] "b"
  let c3 ← c2.flush
  .ok c3.file?

/-- An open collection holding the document
`{"_id": "a", "x": {"y": 1}}` (the value model of the heap `c4Heap`). -/
def c4Coll : Coll :=
  { pk := "_id",
    docs? := some [("a", [("_id", .str "a"), ("x", .dict [("y", .int 1)])])],
    dirty := [], indexes := [], requiresFlush := false,
    file? := some ⟨"", 0⟩ }

/-- A heap holding that document as address `0`: its `"x"` value is the
nested dict object at address `1`; addresses `2` and `10` hold the scalar
leaves, `4` holds a spare `99`, and `3` is free (the copy target). -/
def c4Heap : Heap :=
  [(0, .dictO [("_id", 10), ("x", 1)]),
   (1, .dictO [("y", 2)]),
   (2, .scalarO (.int 1)),
   (10, .scalarO (.str "a")),
   (4, .scalarO (.int 99))]

/-- An open collection holding the single document
`{"_id": "a1", "a": [1, 2]}`. -/
def c7Coll : Coll :=
  { pk := "_id",
    docs? := some [("a1", [("_id", .str "a1"), ("a", .list [.int 1, .int 2])])],
    dirty := [], indexes := [], requiresFlush := false,
    file? := some ⟨"", 0⟩ }

/-- The state `close` leaves behind when called on `Coll.empty "_id"`:
documents, indexes and file handle are gone. -/
def c9Closed : Coll :=
  { pk := "_id", docs? := none, dirty := [], indexes := [],
    requiresFlush := false, file? := none }

/-!
## The index-consistency invariant

`idxHas idx v i` says id `i` sits in bucket `v` of the index (an absent
bucket is an empty one).  `Consistent` is the state invariant maintained
by every operation: well-formed document store (unique ids, every stored
document carries its own id under the primary key), a duplicate-free dirty
set naming only stored ids, and every index with duplicate-free bucket
keys whose clean ids are exactly the ones `_build_index` would record. -/
def idxHas (idx : Index) (v : IKey) (i : String) : Prop :=
  i ∈ ((kalistGet idx v).getD ∅)

instance (idx : Index) (v : IKey) (i : String) : Decidable (idxHas idx v i) := by
  unfold idxHas
  infer_instance

/-- Well-formedness of the document store: unique ids, and
`docs[i][primary_key] == i` (spec §3 invariant 1, established by
`__setitem__`). -/
def docsOk (pk : String) (ds : List (String × Doc)) : Prop :=
  (ds.map (·.1)).Nodup ∧ ∀ e ∈ ds, alistGet e.2 pk = some (.str e.1)

/-- Consistency of one index with the store (spec §3 invariant 2,
relativised to the dirty set): a clean id is in bucket `v` iff
`_build_index` would record `v` for its document. -/
def idxConsistent (pk : String) (ds : List (String × Doc))
    (dirty : List String) (key : String) (idx : Index) : Prop :=
  (idx.map (·.1)).Nodup ∧
  ∀ i, i ∉ dirty → ∀ v,
    idxHas idx v i ↔
      ∃ d, alistGet ds i = some d ∧ v ∈ docIndexKeys (splitDots key) d

/-- The full state invariant. -/
def Consistent (c : Coll) : Prop :=
  ∃ ds, c.docs? = some ds ∧ docsOk c.pk ds ∧ c.dirty.Nodup ∧
    (∀ i ∈ c.dirty, (alistGet ds i).isSome = true) ∧
    ∀ e ∈ c.indexes, idxConsistent c.pk ds c.dirty e.1 e.2

/-- The collection states reachable through the public API: a fresh or
file-loaded collection followed by any sequence of mutations, index
builds, queries and flushes. -/
inductive Reachable : Coll → Prop where
  | init (pk : String) : Reachable (Coll.empty pk)
  | fromDocs {pk : String} {docs : List Doc} {c : Coll} :
      Coll.fromDocs pk docs = .ok c → Reachable c
  | openFile {pk content : String} {docs : List Doc} {c : Coll} :
      Coll.openFromFile pk content docs = .ok c → Reachable c
  | setItemStep {c : Coll} {i : String} {doc d' : Doc} {c' : Coll} :
      Reachable c → c.setItem i doc = .ok (c', d') → Reachable c'
  | insertOneStep {c : Coll} {doc d' : Doc} {uuid i : String} {c' : Coll} :
      Reachable c → c.insertOne doc uuid = .ok (c', i, d') → Reachable c'
  | delItemStep {c : Coll} {i : String} {c' : Coll} :
      Reachable c → c.delItem i = .ok c' → Reachable c'
  | clearStep {c c' : Coll} :
      Reachable c → c.clear = .ok c' → Reachable c'
  | updateStep {c : Coll} {docs : List (Doc × String)} {c' : Coll}
      {ds' : List Doc} :
      Reachable c → c.update docs = .ok (c', ds') → Reachable c'
  | updateIndexesStep {c : Coll} :
      Reachable c → Reachable c.updateIndexes
  | indexStep {c : Coll} {key : String} {build : Bool} {c' : Coll}
      {idx : Index} :
      Reachable c → c.indexMethod key build = .ok (c', idx) → Reachable c'
  | findStep {c : Coll} {filter : Option Val} {limit : Nat} {c' : Coll}
      {r : Finset String} :
      Reachable c → c.findIds filter limit = .ok (c', r) → Reachable c'
  | flushStep {c c' : Coll} :
      Reachable c → c.flush = .ok c' → Reachable c'

/-!
## Association-list lemmas
-/

theorem alistGet_some_mem {β : Type} {l : List (String × β)} {k : String}
    {v : β} (h : alistGet l k = some v) : (k, v) ∈ l := by
  induction l with
  | nil => simp [alistGet] at h
  | cons e rest ih =>
      obtain ⟨k0, w⟩ := e
      by_cases hk : k0 = k
      · subst hk
        simp [alistGet] at h
        simp [h]
      · simp [alistGet, hk] at h
        simp [ih h]

theorem alistGet_eq_none_iff {β : Type} {l : List (String × β)} {k : String} :
    alistGet l k = none ↔ k ∉ l.map (·.1) := by
  induction l with
  | nil => simp [alistGet]
  | cons e rest ih =>
      obtain ⟨k0, w⟩ := e
      by_cases hk : k0 = k
      · subst hk
        simp [alistGet]
      · simp [alistGet, hk, ih, Ne.symm hk]

theorem mem_alistGet_of_nodup {β : Type} {l : List (String × β)} {k : String}
    {v : β} (hn : (l.map (·.1)).Nodup) (h : (k, v) ∈ l) :
    alistGet l k = some v := by
  induction l with
  | nil => simp at h
  | cons e rest ih =>
      obtain ⟨k0, w⟩ := e
      rw [List.map_cons, List.nodup_cons] at hn
      rcases List.mem_cons.mp h with h1 | h1
      · rw [Prod.mk.injEq] at h1
        obtain ⟨rfl, rfl⟩ := h1
        simp [alistGet]
      · have hne : k0 ≠ k := by
          rintro rfl
          exact hn.1 (List.mem_map.mpr ⟨(k0, v), h1, rfl⟩)
        simp [alistGet, hne, ih hn.2 h1]

theorem alistGet_alistSet {β : Type} (l : List (String × β)) (k : String)
    (v : β) (k' : String) :
    alistGet (alistSet l k v) k' =
      if k' = k then some v else alistGet l k' := by
  induction l with
  | nil =>
      by_cases h : k' = k
      · subst h
        simp [alistSet, alistGet]
      · simp [alistSet, alistGet, h, Ne.symm h]
  | cons e rest ih =>
      obtain ⟨k0, w⟩ := e
      by_cases h0 : k0 = k
      · subst h0
        by_cases h1 : k0 = k'
        · subst h1
          simp [alistSet, alistGet]
        · simp [alistSet, alistGet, h1, Ne.symm h1]
      · by_cases h1 : k0 = k'
        · subst h1
          simp [alistSet, alistGet, h0, Ne.symm h0]
        · simp [alistSet, alistGet, h0, h1, ih]

theorem mem_alistSet {β : Type} {l : List (String × β)} {k : String} {v : β}
    {e : String × β} (h : e ∈ alistSet l k v) : e ∈ l ∨ e = (k, v) := by
  induction l with
  | nil =>
      simp [alistSet] at h
      simp [h]
  | cons e0 rest ih =>
      obtain ⟨k0, w⟩ := e0
      by_cases h0 : k0 = k
      · subst h0
        simp [alistSet] at h
        rcases h with h | h
        · right; simp [h]
        · left; simp [h]
      · simp [alistSet, h0] at h
        rcases h with h | h
        · left; simp [h]
        · rcases ih h with h1 | h1
          · left; simp [h1]
          · right; exact h1

theorem map_fst_alistSet {β : Type} (l : List (String × β)) (k : String)
    (v : β) :
    (alistSet l k v).map (·.1) =
      if k ∈ l.map (·.1) then l.map (·.1) else l.map (·.1) ++ [k] := by
  induction l with
  | nil => simp [alistSet]
  | cons e rest ih =>
      obtain ⟨k0, w⟩ := e
      by_cases h0 : k0 = k
      · subst h0
        simp [alistSet]
      · simp only [alistSet, h0, ite_false, List.map_cons, List.mem_cons]
        rw [ih]
        by_cases h1 : k ∈ rest.map (·.1) <;>
          simp [h1, Ne.symm h0]

theorem nodup_fst_alistSet {β : Type} {l : List (String × β)} {k : String}
    {v : β} (h : (l.map (·.1)).Nodup) :
    ((alistSet l k v).map (·.1)).Nodup := by
  rw [map_fst_alistSet]
  by_cases h1 : k ∈ l.map (·.1)
  · simpa [h1] using h
  · rw [if_neg h1]
    simp only [List.nodup_append, List.nodup_cons, List.nodup_nil]
    refine ⟨h, by simp, ?_⟩
    intro a ha
    simp only [List.mem_singleton]
    rintro rfl
    exact h1 ha

theorem alistDel_sublist {β : Type} (l : List (String × β)) (k : String) :
    (alistDel l k).Sublist l := by
  induction l with
  | nil => simp [alistDel]
  | cons e rest ih =>
      obtain ⟨k0, w⟩ := e
      by_cases h0 : k0 = k
      · simp only [alistDel, h0, ite_true]
        exact List.sublist_cons_self _ _
      · simp only [alistDel, h0, ite_false]
        exact List.Sublist.cons₂ _ ih

theorem alistGet_alistDel_ne {β : Type} (l : List (String × β))
    {k k' : String} (h : k' ≠ k) :
    alistGet (alistDel l k) k' = alistGet l k' := by
  induction l with
  | nil => simp [alistDel]
  | cons e rest ih =>
      obtain ⟨k0, w⟩ := e
      by_cases h0 : k0 = k
      · subst h0
        simp [alistDel, alistGet, Ne.symm h]
      · by_cases h1 : k0 = k'
        · subst h1
          simp [alistDel, h0, alistGet]
        · simp [alistDel, h0, alistGet, h1, ih]

theorem alistGet_alistDel_self {β : Type} {l : List (String × β)}
    {k : String} (hn : (l.map (·.1)).Nodup) :
    alistGet (alistDel l k) k = none := by
  induction l with
  | nil => simp [alistDel, alistGet]
  | cons e rest ih =>
      obtain ⟨k0, w⟩ := e
      rw [List.map_cons, List.nodup_cons] at hn
      by_cases h0 : k0 = k
      · subst h0
        simp only [alistDel, ite_true]
        rw [alistGet_eq_none_iff]
        exact hn.1
      · simp [alistDel, h0, alistGet, ih hn.2]

/-!
## Generic (`kalist`) lemmas for index buckets
-/

theorem kalistGet_kalistSet {α β : Type} [DecidableEq α]
    (l : List (α × β)) (k : α) (v : β) (k' : α) :
    kalistGet (kalistSet l k v) k' =
      if k' = k then some v else kalistGet l k' := by
  induction l with
  | nil =>
      by_cases h : k' = k
      · subst h
        simp [kalistSet, kalistGet]
      · simp [kalistSet, kalistGet, h, Ne.symm h]
  | cons e rest ih =>
      obtain ⟨k0, w⟩ := e
      by_cases h0 : k0 = k
      · subst h0
        by_cases h1 : k0 = k'
        · subst h1
          simp [kalistSet, kalistGet]
        · simp [kalistSet, kalistGet, h1, Ne.symm h1]
      · by_cases h1 : k0 = k'
        · subst h1
          simp [kalistSet, kalistGet, h0, Ne.symm h0]
        · simp [kalistSet, kalistGet, h0, h1, ih]

theorem kalistGet_append {α β : Type} [DecidableEq α]
    (l m : List (α × β)) (k : α) :
    kalistGet (l ++ m) k =
      match kalistGet l k with
      | some v => some v
      | none => kalistGet m k := by
  induction l with
  | nil => simp [kalistGet]
  | cons e rest ih =>
      obtain ⟨k0, w⟩ := e
      by_cases h0 : k0 = k <;> simp [kalistGet, h0, ih]

theorem kalistGet_eq_none_iff {α β : Type} [DecidableEq α]
    {l : List (α × β)} {k : α} :
    kalistGet l k = none ↔ k ∉ l.map (·.1) := by
  induction l with
  | nil => simp [kalistGet]
  | cons e rest ih =>
      obtain ⟨k0, w⟩ := e
      by_cases h0 : k0 = k
      · subst h0
        simp [kalistGet]
      · simp [kalistGet, h0, ih, Ne.symm h0]

theorem map_fst_kalistSet {α β : Type} [DecidableEq α]
    (l : List (α × β)) (k : α) (v : β) :
    (kalistSet l k v).map (·.1) =
      if k ∈ l.map (·.1) then l.map (·.1) else l.map (·.1) ++ [k] := by
  induction l with
  | nil => simp [kalistSet]
  | cons e rest ih =>
      obtain ⟨k0, w⟩ := e
      by_cases h0 : k0 = k
      · subst h0
        simp [kalistSet]
      · simp only [kalistSet, h0, ite_false, List.map_cons, List.mem_cons]
        rw [ih]
        by_cases h1 : k ∈ rest.map (·.1) <;>
          simp [h1, Ne.symm h0]

theorem nodup_fst_kalistSet {α β : Type} [DecidableEq α]
    {l : List (α × β)} {k : α} {v : β} (h : (l.map (·.1)).Nodup) :
    ((kalistSet l k v).map (·.1)).Nodup := by
  rw [map_fst_kalistSet]
  by_cases h1 : k ∈ l.map (·.1)
  · simpa [h1] using h
  · rw [if_neg h1]
    simp only [List.nodup_append, List.nodup_cons, List.nodup_nil]
    refine ⟨h, by simp, ?_⟩
    intro a ha
    simp only [List.mem_singleton]
    rintro rfl
    exact h1 ha

/-!
## Bucket-level lemmas for indexes
-/

theorem kalistGet_bucketAdd (idx : Index) (k : IKey) (i : String) (k' : IKey) :
    kalistGet (bucketAdd idx k i) k' =
      if k' = k then some (insert i ((kalistGet idx k).getD ∅))
      else kalistGet idx k' := by
  unfold bucketAdd
  cases hg : kalistGet idx k with
  | some s =>
      rw [kalistGet_kalistSet]
      by_cases h : k' = k <;> simp [h, hg]
  | none =>
      rw [kalistGet_append]
      by_cases h : k' = k
      · subst h
        simp [hg, kalistGet]
      · cases hg2 : kalistGet idx k' <;> simp [hg2, kalistGet, h, Ne.symm h]

theorem nodup_fst_bucketAdd {idx : Index} {k : IKey} {i : String}
    (h : (idx.map (·.1)).Nodup) : ((bucketAdd idx k i).map (·.1)).Nodup := by
  unfold bucketAdd
  cases hg : kalistGet idx k with
  | some s => exact nodup_fst_kalistSet h
  | none =>
      rw [List.map_append]
      simp only [List.map_cons, List.map_nil, List.nodup_append,
        List.nodup_cons, List.nodup_nil]
      refine ⟨h, by simp, ?_⟩
      intro a ha
      simp only [List.mem_singleton]
      rintro rfl
      exact (kalistGet_eq_none_iff.mp hg) ha

theorem kalistGet_bucketUnionAt (idx : Index) (k : IKey) (g : Finset String)
    (k' : IKey) :
    kalistGet (bucketUnionAt idx k g) k' =
      if k' = k then some (((kalistGet idx k).getD ∅) ∪ g)
      else kalistGet idx k' := by
  unfold bucketUnionAt
  cases hg : kalistGet idx k with
  | some s =>
      rw [kalistGet_kalistSet]
      by_cases h : k' = k <;> simp [h, hg]
  | none =>
      rw [kalistGet_append]
      by_cases h : k' = k
      · subst h
        simp [hg, kalistGet]
      · cases hg2 : kalistGet idx k' <;> simp [hg2, kalistGet, h, Ne.symm h]

theorem nodup_fst_bucketUnionAt {idx : Index} {k : IKey} {g : Finset String}
    (h : (idx.map (·.1)).Nodup) :
    ((bucketUnionAt idx k g).map (·.1)).Nodup := by
  unfold bucketUnionAt
  cases hg : kalistGet idx k with
  | some s => exact nodup_fst_kalistSet h
  | none =>
      rw [List.map_append]
      simp only [List.map_cons, List.map_nil, List.nodup_append,
        List.nodup_cons, List.nodup_nil]
      refine ⟨h, by simp, ?_⟩
      intro a ha
      simp only [List.mem_singleton]
      rintro rfl
      exact (kalistGet_eq_none_iff.mp hg) ha

theorem idxHas_foldAdd (ks : List IKey) (idx : Index) (j : String)
    (v : IKey) (i : String) :
    idxHas (ks.foldl (fun acc k => bucketAdd acc k j) idx) v i ↔
      idxHas idx v i ∨ (i = j ∧ v ∈ ks) := by
  induction ks generalizing idx with
  | nil => simp
  | cons k rest ih =>
      rw [List.foldl_cons, ih]
      have hb : idxHas (bucketAdd idx k j) v i ↔
          (v = k ∧ (i = j ∨ idxHas idx v i)) ∨ (v ≠ k ∧ idxHas idx v i) := by
        unfold idxHas
        rw [kalistGet_bucketAdd]
        by_cases h : v = k
        · subst h
          simp [Finset.mem_insert]
        · simp [h]
      rw [hb]
      by_cases h : v = k
      · subst h
        simp
        try tauto
      · simp [h]
        try tauto

theorem nodup_fst_foldAdd (ks : List IKey) {idx : Index} (j : String)
    (h : (idx.map (·.1)).Nodup) :
    (((ks.foldl (fun acc k => bucketAdd acc k j) idx)).map (·.1)).Nodup := by
  induction ks generalizing idx with
  | nil => exact h
  | cons k rest ih => exact ih (nodup_fst_bucketAdd h)

theorem idxHas_addDocToIndex (idx : Index) (nodes : List String) (pk : String)
    (doc : Doc) (v : IKey) (i : String) :
    idxHas (addDocToIndex idx nodes pk doc) v i ↔
      idxHas idx v i ∨ (i = docId pk doc ∧ v ∈ docIndexKeys nodes doc) :=
  idxHas_foldAdd _ _ _ _ _

theorem idxHas_foldDocs (docs : List Doc) (idx : Index) (nodes : List String)
    (pk : String) (v : IKey) (i : String) :
    idxHas (docs.foldl (fun acc doc => addDocToIndex acc nodes pk doc) idx) v i ↔
      idxHas idx v i ∨
        ∃ doc ∈ docs, i = docId pk doc ∧ v ∈ docIndexKeys nodes doc := by
  induction docs generalizing idx with
  | nil => simp
  | cons d rest ih =>
      rw [List.foldl_cons, ih, idxHas_addDocToIndex]
      simp
      tauto

theorem idxHas_buildIndex (docs : List Doc) (key pk : String) (v : IKey)
    (i : String) :
    idxHas (buildIndex docs key pk) v i ↔
      ∃ doc ∈ docs, i = docId pk doc ∧
        v ∈ docIndexKeys (splitDots key) doc := by
  unfold buildIndex
  have h := idxHas_foldDocs docs [] (splitDots key) pk v i
  rw [h]
  simp [idxHas, kalistGet]

theorem nodup_fst_buildIndex (docs : List Doc) (key pk : String) :
    ((buildIndex docs key pk).map (·.1)).Nodup := by
  unfold buildIndex
  have : ∀ (idx : Index), (idx.map (·.1)).Nodup →
      (((docs.foldl (fun acc doc => addDocToIndex acc (splitDots key) pk doc)
        idx)).map (·.1)).Nodup := by
    induction docs with
    | nil => intro idx h; exact h
    | cons d rest ih =>
        intro idx h
        exact ih _ (nodup_fst_foldAdd _ _ h)
  exact this [] (by simp)

theorem idxHas_mergeIndex (tmp idx : Index) (v : IKey) (i : String) :
    idxHas (mergeIndex idx tmp) v i ↔
      idxHas idx v i ∨ ∃ e ∈ tmp, e.1 = v ∧ i ∈ e.2 := by
  unfold mergeIndex
  induction tmp generalizing idx with
  | nil => simp
  | cons e rest ih =>
      obtain ⟨k, g⟩ := e
      rw [List.foldl_cons, ih]
      have hb : idxHas (bucketUnionAt idx k g) v i ↔
          (v = k ∧ (i ∈ g ∨ idxHas idx v i)) ∨ (v ≠ k ∧ idxHas idx v i) := by
        unfold idxHas
        rw [kalistGet_bucketUnionAt]
        by_cases h : v = k
        · subst h
          simp [Finset.mem_union]
          tauto
        · simp [h]
      rw [hb]
      by_cases h : v = k
      · subst h
        simp
        try tauto
      · simp [h, Ne.symm h]
        try tauto

theorem nodup_fst_mergeIndex {idx : Index} (tmp : Index)
    (h : (idx.map (·.1)).Nodup) : ((mergeIndex idx tmp).map (·.1)).Nodup := by
  unfold mergeIndex
  induction tmp generalizing idx with
  | nil => exact h
  | cons e rest ih => exact ih (nodup_fst_bucketUnionAt h)

theorem map_fst_removeId_sublist (idx : Index) (i : String) :
    ((removeIdFromIndex idx i).map (·.1)).Sublist (idx.map (·.1)) := by
  unfold removeIdFromIndex
  have h1 := List.filter_sublist (l := idx.map fun e => (e.1, e.2.erase i))
    (p := fun e => decide (e.2 ≠ ∅))
  have h2 := h1.map (·.1)
  simpa [List.map_map, Function.comp] using h2

theorem nodup_fst_removeId {idx : Index} {i : String}
    (h : (idx.map (·.1)).Nodup) :
    ((removeIdFromIndex idx i).map (·.1)).Nodup :=
  (map_fst_removeId_sublist idx i).nodup h

theorem kalistGet_removeId {idx : Index} {i : String}
    (hn : (idx.map (·.1)).Nodup) (k : IKey) :
    kalistGet (removeIdFromIndex idx i) k =
      match kalistGet idx k with
      | none => none
      | some s => if s.erase i = ∅ then none else some (s.erase i) := by
  induction idx with
  | nil => simp [removeIdFromIndex, kalistGet]
  | cons e rest ih =>
      obtain ⟨k0, s0⟩ := e
      rw [List.map_cons, List.nodup_cons] at hn
      have hrest := ih hn.2
      by_cases he : s0.erase i = ∅
      · have hdrop : removeIdFromIndex ((k0, s0) :: rest) i =
            removeIdFromIndex rest i := by
          unfold removeIdFromIndex
          simp [List.filter_cons, he]
        rw [hdrop, hrest]
        by_cases hk : k0 = k
        · subst hk
          have hnone : kalistGet rest k0 = none :=
            kalistGet_eq_none_iff.mpr hn.1
          simp [kalistGet, hnone, he]
        · simp [kalistGet, hk]
      · have hkeep : removeIdFromIndex ((k0, s0) :: rest) i =
            (k0, s0.erase i) :: removeIdFromIndex rest i := by
          unfold removeIdFromIndex
          simp [List.filter_cons, he]
        rw [hkeep]
        by_cases hk : k0 = k
        · subst hk
          simp [kalistGet, he]
        · simp only [kalistGet, hk, ite_false]
          exact hrest

theorem idxHas_removeId {idx : Index} {i : String}
    (hn : (idx.map (·.1)).Nodup) (v : IKey) (j : String) :
    idxHas (removeIdFromIndex idx i) v j ↔ j ≠ i ∧ idxHas idx v j := by
  unfold idxHas
  rw [kalistGet_removeId hn]
  cases hg : kalistGet idx v with
  | none => simp
  | some s =>
      by_cases he : s.erase i = ∅
      · simp only [he, ite_true, Option.getD_none]
        constructor
        · intro h
          exact absurd h (Finset.not_mem_empty j)
        · rintro ⟨hne, hj⟩
          exact absurd (he ▸ Finset.mem_erase.mpr ⟨hne, hj⟩)
            (Finset.not_mem_empty j)
      · simp [he, Finset.mem_erase]

theorem idxHas_foldRemove (dirty : List String) {idx : Index}
    (hn : (idx.map (·.1)).Nodup) (v : IKey) (j : String) :
    idxHas (dirty.foldl removeIdFromIndex idx) v j ↔
      j ∉ dirty ∧ idxHas idx v j := by
  induction dirty generalizing idx with
  | nil => simp
  | cons d rest ih =>
      rw [List.foldl_cons, ih (nodup_fst_removeId hn), idxHas_removeId hn]
      simp
      tauto

theorem nodup_fst_foldRemove (dirty : List String) {idx : Index}
    (hn : (idx.map (·.1)).Nodup) :
    ((dirty.foldl removeIdFromIndex idx).map (·.1)).Nodup := by
  induction dirty generalizing idx with
  | nil => exact hn
  | cons d rest ih => exact ih (nodup_fst_removeId hn)

theorem kalistGet_some_mem {α β : Type} [DecidableEq α] {l : List (α × β)}
    {k : α} {v : β} (h : kalistGet l k = some v) : (k, v) ∈ l := by
  induction l with
  | nil => simp [kalistGet] at h
  | cons e rest ih =>
      obtain ⟨k0, w⟩ := e
      by_cases hk : k0 = k
      · subst hk
        simp [kalistGet] at h
        simp [h]
      · simp [kalistGet, hk] at h
        simp [ih h]

theorem mem_kalistGet_of_nodup {α β : Type} [DecidableEq α]
    {l : List (α × β)} {k : α} {v : β} (hn : (l.map (·.1)).Nodup)
    (h : (k, v) ∈ l) : kalistGet l k = some v := by
  induction l with
  | nil => simp at h
  | cons e rest ih =>
      obtain ⟨k0, w⟩ := e
      rw [List.map_cons, List.nodup_cons] at hn
      rcases List.mem_cons.mp h with h1 | h1
      · rw [Prod.mk.injEq] at h1
        obtain ⟨rfl, rfl⟩ := h1
        simp [kalistGet]
      · have hne : k0 ≠ k := by
          rintro rfl
          exact hn.1 (List.mem_map.mpr ⟨(k0, v), h1, rfl⟩)
        simp [kalistGet, hne, ih hn.2 h1]

theorem idxHas_iff_exists {idx : Index} (hn : (idx.map (·.1)).Nodup)
    (v : IKey) (i : String) :
    idxHas idx v i ↔ ∃ e ∈ idx, e.1 = v ∧ i ∈ e.2 := by
  unfold idxHas
  constructor
  · intro h
    cases hg : kalistGet idx v with
    | none => rw [hg] at h; simp at h
    | some s =>
        rw [hg] at h
        exact ⟨(v, s), kalistGet_some_mem hg, rfl, by simpa using h⟩
  · rintro ⟨⟨k, s⟩, he, rfl, hi⟩
    rw [mem_kalistGet_of_nodup hn he]
    simpa using hi

/-- `docsOk` pins the id under which `_build_index` files a stored
document. -/
theorem docId_eq {pk : String} {ds : List (String × Doc)} {j : String}
    {doc : Doc} (hd : docsOk pk ds) (h : alistGet ds j = some doc) :
    docId pk doc = j := by
  have hm := alistGet_some_mem h
  have := hd.2 (j, doc) hm
  unfold docId
  rw [this]

/-- Shape of `_update_indexes` on an open collection. -/
theorem updateIndexes_eq {c : Coll} {ds : List (String × Doc)}
    (hds : c.docs? = some ds) :
    c.updateIndexes =
      if c.dirty = [] then c
      else { c with
        indexes := (c.indexes.map fun e =>
            (e.1, c.dirty.foldl removeIdFromIndex e.2)).map fun e =>
          (e.1, mergeIndex e.2 (buildIndex
            (c.dirty.filterMap fun i => alistGet ds i) e.1 c.pk)),
        dirty := [] } := by
  unfold Coll.updateIndexes
  rw [hds]

theorem consistent_updateIndexes {c : Coll} (hc : Consistent c) :
    Consistent c.updateIndexes ∧ c.updateIndexes.pk = c.pk ∧
      c.updateIndexes.docs? = c.docs? ∧ c.updateIndexes.dirty = [] ∧
      c.updateIndexes.file? = c.file? ∧
      c.updateIndexes.requiresFlush = c.requiresFlush := by
  obtain ⟨ds, hds, hdocs, hdn, hdsub, hidx⟩ := hc
  rw [updateIndexes_eq hds]
  by_cases hd : c.dirty = []
  · rw [if_pos hd]
    exact ⟨⟨ds, hds, hdocs, hdn, hdsub, hidx⟩, rfl, rfl, hd, rfl, rfl⟩
  · rw [if_neg hd]
    refine ⟨⟨ds, hds, hdocs, by simp, by simp, ?_⟩, rfl, rfl, rfl, rfl, rfl⟩
    intro e he
    simp only [List.mem_map] at he
    obtain ⟨e1, he1, rfl⟩ := he
    obtain ⟨e0, he0, rfl⟩ := he1
    obtain ⟨hkn, hcons⟩ := hidx e0 he0
    constructor
    · exact nodup_fst_mergeIndex _ (nodup_fst_foldRemove _ hkn)
    · intro i _ v
      rw [idxHas_mergeIndex]
      have htmp : (∃ e ∈ buildIndex (c.dirty.filterMap fun j => alistGet ds j)
            e0.1 c.pk, e.1 = v ∧ i ∈ e.2) ↔
          (i ∈ c.dirty ∧ ∃ d, alistGet ds i = some d ∧
            v ∈ docIndexKeys (splitDots e0.1) d) := by
        rw [← idxHas_iff_exists (nodup_fst_buildIndex _ _ _),
          idxHas_buildIndex]
        constructor
        · rintro ⟨doc, hdm, rfl, hv⟩
          obtain ⟨j, hj, hjd⟩ := List.mem_filterMap.mp hdm
          rw [docId_eq hdocs hjd]
          exact ⟨hj, doc, hjd, hv⟩
        · rintro ⟨hdi, d, hdg, hv⟩
          refine ⟨d, List.mem_filterMap.mpr ⟨i, hdi, hdg⟩,
            (docId_eq hdocs hdg).symm, hv⟩
      rw [htmp, idxHas_foldRemove _ hkn]
      by_cases hi : i ∈ c.dirty
      · simp [hi]
      · simp only [hi, false_and, or_false, not_false_iff, true_and]
        exact hcons i hi v

/-!
## Preservation of the invariant by every operation
-/

theorem alistGet_append {β : Type} (l m : List (String × β)) (k : String) :
    alistGet (l ++ m) k =
      match alistGet l k with
      | some v => some v
      | none => alistGet m k := by
  induction l with
  | nil => simp [alistGet]
  | cons e rest ih =>
      obtain ⟨k0, w⟩ := e
      by_cases h0 : k0 = k <;> simp [alistGet, h0, ih]

theorem alistGet_setdefault_self (d : Doc) (k : String) (v : Val) :
    alistGet (setdefault d k v).1 k = some (setdefault d k v).2 := by
  unfold setdefault
  cases hg : alistGet d k with
  | some w => simpa using hg
  | none => simp [alistGet_append, hg, alistGet]

theorem alistGet_normalizeDoc (d : Doc) (k : String) :
    alistGet (normalizeDoc d) k = (alistGet d k).map normalize := by
  unfold normalizeDoc
  induction d with
  | nil => simp [normalizeEntries, alistGet]
  | cons e rest ih =>
      obtain ⟨k0, w⟩ := e
      by_cases h : k0 = k <;> simp [normalizeEntries, alistGet, h, ih]

theorem mem_dirtyAdd {dirty : List String} {i j : String} :
    j ∈ dirtyAdd dirty i ↔ j ∈ dirty ∨ j = i := by
  unfold dirtyAdd
  by_cases h : i ∈ dirty
  · simp [h]
    intro hj
    subst hj
    exact h
  · simp [h]

theorem nodup_dirtyAdd {dirty : List String} {i : String}
    (h : dirty.Nodup) : (dirtyAdd dirty i).Nodup := by
  unfold dirtyAdd
  by_cases hm : i ∈ dirty
  · simpa [hm]
  · simp [hm, List.nodup_append, h]

theorem consistent_of_eq_core {c c' : Coll} (hc : Consistent c)
    (hpk : c'.pk = c.pk) (hd : c'.docs? = c.docs?) (hdi : c'.dirty = c.dirty)
    (hx : c'.indexes = c.indexes) : Consistent c' := by
  obtain ⟨ds, hds, h1, h2, h3, h4⟩ := hc
  exact ⟨ds, by rw [hd, hds], by rw [hpk]; exact h1, by rw [hdi]; exact h2,
    by rw [hdi]; exact h3, by rw [hx, hpk, hdi]; exact h4⟩

theorem consistent_empty (pk : String) : Consistent (Coll.empty pk) := by
  refine ⟨[], rfl, ⟨by simp, by simp⟩, by simp [Coll.empty],
    by simp [Coll.empty], ?_⟩
  intro e he
  simp [Coll.empty] at he

theorem setItem_ok {c : Coll} {i : String} {doc : Doc} {c' : Coll} {d1 : Doc}
    (h : c.setItem i doc = .ok (c', d1)) :
    ∃ ds, c.docs? = some ds ∧
      d1 = (setdefault doc c.pk (.str i)).1 ∧
      (setdefault doc c.pk (.str i)).2 = .str i ∧
      c' = { c with docs? := some (alistSet ds i (normalizeDoc d1)),
                    dirty := dirtyAdd c.dirty i, requiresFlush := true } := by
  cases hds : c.docs? with
  | none =>
      unfold Coll.setItem Coll.assertOpen at h
      rw [hds] at h
      simp [Bind.bind, Except.bind] at h
  | some ds =>
      unfold Coll.setItem Coll.assertOpen at h
      rw [hds] at h
      simp only [Bind.bind, Except.bind] at h
      split_ifs at h with hp
      · simp only [Except.ok.injEq, Prod.mk.injEq] at h
        obtain ⟨h1, h2⟩ := h
        subst h2
        exact ⟨ds, rfl, rfl, hp, h1.symm⟩

theorem consistent_setItem {c : Coll} {i : String} {doc : Doc} {c' : Coll}
    {d1 : Doc} (hc : Consistent c) (h : c.setItem i doc = .ok (c', d1)) :
    Consistent c' ∧ c'.pk = c.pk := by
  obtain ⟨ds, hds, hdocs, hdn, hdsub, hidx⟩ := hc
  obtain ⟨ds2, hds2, hd1, hp, rfl⟩ := setItem_ok h
  rw [hds] at hds2
  obtain rfl : ds = ds2 := by injection hds2
  refine ⟨⟨alistSet ds i (normalizeDoc d1), rfl, ⟨nodup_fst_alistSet hdocs.1, ?_⟩,
    nodup_dirtyAdd hdn, ?_, ?_⟩, rfl⟩
  · intro e he
    rcases mem_alistSet he with h1 | h1
    · exact hdocs.2 e h1
    · subst h1
      simp only
      rw [alistGet_normalizeDoc, hd1, alistGet_setdefault_self, hp]
      rfl
  · intro j hj
    rcases mem_dirtyAdd.mp hj with h1 | h1
    · rw [alistGet_alistSet]
      split_ifs with h2
      · rfl
      · exact hdsub j h1
    · subst h1
      rw [alistGet_alistSet, if_pos rfl]
      rfl
  · intro e he
    obtain ⟨hkn, hcons⟩ := hidx e he
    refine ⟨hkn, ?_⟩
    intro j hj v
    have hj1 : j ∉ c.dirty := fun hmem => hj (mem_dirtyAdd.mpr (Or.inl hmem))
    have hj2 : j ≠ i := fun heq => hj (mem_dirtyAdd.mpr (Or.inr heq))
    rw [hcons j hj1 v, alistGet_alistSet, if_neg hj2]

theorem delItem_ok {c : Coll} {i : String} {c' : Coll}
    (h : c.delItem i = .ok c') :
    ∃ ds, c.docs? = some ds ∧ (alistGet ds i).isSome = true ∧
      c' = { c with docs? := some (alistDel ds i),
                    indexes := c.indexes.map fun e =>
                      (e.1, removeIdFromIndex e.2 i),
                    dirty := c.dirty.erase i, requiresFlush := true } := by
  cases hds : c.docs? with
  | none =>
      unfold Coll.delItem Coll.assertOpen at h
      rw [hds] at h
      simp [Bind.bind, Except.bind] at h
  | some ds =>
      unfold Coll.delItem Coll.assertOpen Coll.removeFromIndexes at h
      rw [hds] at h
      simp only [Bind.bind, Except.bind] at h
      split_ifs at h with hp
      · simp only [Except.ok.injEq] at h
        exact ⟨ds, rfl, hp, h.symm⟩

theorem consistent_delItem {c : Coll} {i : String} {c' : Coll}
    (hc : Consistent c) (h : c.delItem i = .ok c') :
    Consistent c' ∧ c'.pk = c.pk := by
  obtain ⟨ds, hds, hdocs, hdn, hdsub, hidx⟩ := hc
  obtain ⟨ds2, hds2, hsome, rfl⟩ := delItem_ok h
  rw [hds] at hds2
  obtain rfl : ds = ds2 := by injection hds2
  have hsubl := alistDel_sublist ds i
  refine ⟨⟨alistDel ds i, rfl,
    ⟨(hsubl.map (·.1)).nodup hdocs.1, fun e he => hdocs.2 e (hsubl.subset he)⟩,
    hdn.erase i, ?_, ?_⟩, rfl⟩
  · intro j hj
    rw [List.Nodup.mem_erase_iff hdn] at hj
    rw [alistGet_alistDel_ne _ hj.1]
    exact hdsub j hj.2
  · intro e he
    simp only [List.mem_map] at he
    obtain ⟨e0, he0, rfl⟩ := he
    obtain ⟨hkn, hcons⟩ := hidx e0 he0
    refine ⟨nodup_fst_removeId hkn, ?_⟩
    intro j hj v
    rw [idxHas_removeId hkn]
    by_cases hji : j = i
    · subst hji
      rw [alistGet_alistDel_self hdocs.1]
      simp
    · have hj1 : j ∉ c.dirty := by
        intro hmem
        exact hj (List.Nodup.mem_erase_iff hdn |>.mpr ⟨hji, hmem⟩)
      rw [alistGet_alistDel_ne _ hji, hcons j hj1 v]
      simp [hji]

theorem clear_ok {c : Coll} {c' : Coll} (h : c.clear = .ok c') :
    c' = { c with docs? := some [], indexes := [], dirty := [],
                  requiresFlush := true } := by
  unfold Coll.clear at h
  cases hds : c.docs? with
  | none => rw [hds] at h; simp at h
  | some ds =>
      rw [hds] at h
      simp only [Except.ok.injEq] at h
      exact h.symm

theorem consistent_clear {c c' : Coll} (h : c.clear = .ok c') :
    Consistent c' ∧ c'.pk = c.pk := by
  obtain rfl := clear_ok h
  exact ⟨⟨[], rfl, ⟨by simp, by simp⟩, by simp, by simp, by simp⟩, rfl⟩

theorem consistent_buildIdx {c : Coll} {key : String} (hc : Consistent c) :
    Consistent (c.buildIdx key) ∧ (c.buildIdx key).pk = c.pk ∧
      (c.buildIdx key).docs? = c.docs? ∧ (c.buildIdx key).dirty = c.dirty := by
  obtain ⟨ds, hds, hdocs, hdn, hdsub, hidx⟩ := hc
  refine ⟨⟨ds, hds, hdocs, hdn, hdsub, ?_⟩, rfl, rfl, rfl⟩
  intro e he
  unfold Coll.buildIdx at he
  simp only at he
  rcases mem_alistSet he with h1 | h1
  · exact hidx e h1
  · subst h1
    refine ⟨nodup_fst_buildIndex _ _ _, ?_⟩
    intro i _ v
    rw [idxHas_buildIndex]
    unfold Coll.docsList
    rw [hds]
    constructor
    · rintro ⟨doc, hdm, rfl, hv⟩
      simp only [Option.getD_some] at hdm
      obtain ⟨e1, he1, rfl⟩ := List.mem_map.mp hdm
      have hlook : alistGet ds e1.1 = some e1.2 := by
        have := mem_alistGet_of_nodup hdocs.1 (show (e1.1, e1.2) ∈ ds from he1)
        exact this
      rw [docId_eq hdocs hlook]
      exact ⟨e1.2, hlook, hv⟩
    · rintro ⟨d, hdg, hv⟩
      refine ⟨d, ?_, (docId_eq hdocs hdg).symm, hv⟩
      simp only [Option.getD_some]
      exact List.mem_map.mpr ⟨(i, d), alistGet_some_mem hdg, rfl⟩

theorem indexMethod_ok {c : Coll} {key : String} {build : Bool} {c' : Coll}
    {idx : Index} (h : c.indexMethod key build = .ok (c', idx)) :
    c' = c.updateIndexes ∨ c' = (c.buildIdx key).updateIndexes := by
  unfold Coll.indexMethod at h
  by_cases hk : key = c.pk
  · rw [if_pos hk] at h
    simp at h
  · rw [if_neg hk] at h
    cases hg : alistGet c.indexes key with
    | some s =>
        rw [hg] at h
        simp only [Except.ok.injEq, Prod.mk.injEq] at h
        exact Or.inl h.1.symm
    | none =>
        rw [hg] at h
        cases build with
        | false => simp at h
        | true =>
            simp only [ite_true] at h
            cases hds : c.docs? with
            | none => rw [hds] at h; simp at h
            | some ds =>
                rw [hds] at h
                simp only [Except.ok.injEq, Prod.mk.injEq] at h
                exact Or.inr h.1.symm

theorem consistent_indexMethod {c : Coll} {key : String} {build : Bool}
    {c' : Coll} {idx : Index} (hc : Consistent c)
    (h : c.indexMethod key build = .ok (c', idx)) :
    Consistent c' ∧ c'.pk = c.pk ∧ c'.docs? = c.docs? := by
  rcases indexMethod_ok h with rfl | rfl
  · obtain ⟨h1, h2, h3, _⟩ := consistent_updateIndexes hc
    exact ⟨h1, h2, h3⟩
  · obtain ⟨hb, hbpk, hbds, _⟩ := @consistent_buildIdx c key hc
    obtain ⟨h1, h2, h3, _⟩ := consistent_updateIndexes hb
    exact ⟨h1, by rw [h2, hbpk], by rw [h3, hbds]⟩

theorem insertOne_ok {c : Coll} {doc : Doc} {uuid : String} {c' : Coll}
    {i : String} {d2 : Doc} (h : c.insertOne doc uuid = .ok (c', i, d2)) :
    c.setItem i (setdefault doc c.pk (.str uuid)).1 = .ok (c', d2) ∧
      (setdefault doc c.pk (.str uuid)).2 = .str i := by
  cases hds : c.docs? with
  | none =>
      unfold Coll.insertOne Coll.assertOpen at h
      rw [hds] at h
      simp [Bind.bind, Except.bind] at h
  | some ds =>
      unfold Coll.insertOne Coll.assertOpen at h
      rw [hds] at h
      simp only [Bind.bind, Except.bind] at h
      cases hp : (setdefault doc c.pk (.str uuid)).2 with
      | str j =>
          rw [hp] at h
          simp only at h
          cases hset : c.setItem j (setdefault doc c.pk (.str uuid)).1 with
          | error e => rw [hset] at h; simp at h
          | ok p =>
              obtain ⟨c1, d1⟩ := p
              rw [hset] at h
              simp only [Except.ok.injEq, Prod.mk.injEq] at h
              obtain ⟨rfl, rfl, rfl⟩ := h
              exact ⟨hset, rfl⟩
      | null => rw [hp] at h; simp at h
      | bool b => rw [hp] at h; simp at h
      | int n => rw [hp] at h; simp at h
      | list xs => rw [hp] at h; simp at h
      | tup xs => rw [hp] at h; simp at h
      | dict es => rw [hp] at h; simp at h

theorem consistent_insertOne {c : Coll} {doc : Doc} {uuid : String}
    {c' : Coll} {i : String} {d2 : Doc} (hc : Consistent c)
    (h : c.insertOne doc uuid = .ok (c', i, d2)) :
    Consistent c' ∧ c'.pk = c.pk :=
  consistent_setItem hc (insertOne_ok h).1

theorem consistent_update {docs : List (Doc × String)} {c c' : Coll}
    {ds' : List Doc} (hc : Consistent c) (h : c.update docs = .ok (c', ds')) :
    Consistent c' ∧ c'.pk = c.pk := by
  induction docs generalizing c ds' with
  | nil =>
      unfold Coll.update at h
      simp only [Except.ok.injEq, Prod.mk.injEq] at h
      obtain ⟨rfl, rfl⟩ := h
      exact ⟨hc, rfl⟩
  | cons pair rest ih =>
      obtain ⟨doc, uuid⟩ := pair
      unfold Coll.update at h
      obtain ⟨ds, hds, _, _, _, _⟩ := id hc
      rw [show c.assertOpen = .ok ds from by unfold Coll.assertOpen; rw [hds]]
        at h
      simp only [Bind.bind, Except.bind] at h
      cases hp : (setdefault doc c.pk (.str uuid)).2 with
      | str j =>
          rw [hp] at h
          simp only at h
          cases hset : c.setItem j (setdefault doc c.pk (.str uuid)).1 with
          | error e => rw [hset] at h; simp at h
          | ok p =>
              obtain ⟨c1, d1⟩ := p
              rw [hset] at h
              simp only at h
              cases hupd : c1.update rest with
              | error e => rw [hupd] at h; simp at h
              | ok q =>
                  obtain ⟨c2, d2s⟩ := q
                  rw [hupd] at h
                  simp only [Except.ok.injEq, Prod.mk.injEq] at h
                  obtain ⟨rfl, rfl⟩ := h
                  obtain ⟨hc1, hpk1⟩ := consistent_setItem hc hset
                  obtain ⟨hc2, hpk2⟩ := ih hc1 hupd
                  exact ⟨hc2, by rw [hpk2, hpk1]⟩
      | null => rw [hp] at h; simp at h
      | bool b => rw [hp] at h; simp at h
      | int n => rw [hp] at h; simp at h
      | list xs => rw [hp] at h; simp at h
      | tup xs => rw [hp] at h; simp at h
      | dict es => rw [hp] at h; simp at h

theorem consistent_setMany {docs : List Doc} {c c' : Coll}
    (hc : Consistent c) (h : c.setMany docs = .ok c') :
    Consistent c' ∧ c'.pk = c.pk := by
  induction docs generalizing c with
  | nil =>
      unfold Coll.setMany at h
      simp only [Except.ok.injEq] at h
      subst h
      exact ⟨hc, rfl⟩
  | cons doc rest ih =>
      unfold Coll.setMany at h
      cases hg : alistGet doc c.pk with
      | none => rw [hg] at h; simp at h
      | some v =>
          rw [hg] at h
          cases v with
          | str i =>
              simp only [Bind.bind, Except.bind] at h
              cases hset : c.setItem i doc with
              | error e => rw [hset] at h; simp at h
              | ok p =>
                  obtain ⟨c1, d1⟩ := p
                  rw [hset] at h
                  simp only at h
                  obtain ⟨hc1, hpk1⟩ := consistent_setItem hc hset
                  obtain ⟨hc2, hpk2⟩ := ih hc1 h
                  exact ⟨hc2, by rw [hpk2, hpk1]⟩
          | null => simp at h
          | bool b => simp at h
          | int n => simp at h
          | list xs => simp at h
          | tup xs => simp at h
          | dict es => simp at h

theorem consistent_fromDocs {pk : String} {docs : List Doc} {c : Coll}
    (h : Coll.fromDocs pk docs = .ok c) : Consistent c ∧ c.pk = pk := by
  unfold Coll.fromDocs at h
  simp only [Bind.bind, Except.bind] at h
  cases hsm : (Coll.empty pk).setMany docs with
  | error e => rw [hsm] at h; simp at h
  | ok c1 =>
      rw [hsm] at h
      simp only [Except.ok.injEq] at h
      subst h
      obtain ⟨hc1, hpk1⟩ := consistent_setMany (consistent_empty pk) hsm
      have hc2 : Consistent { c1 with requiresFlush := false } :=
        consistent_of_eq_core hc1 rfl rfl rfl rfl
      obtain ⟨h1, h2, _, _, _, _⟩ := consistent_updateIndexes hc2
      exact ⟨h1, by rw [h2]; exact hpk1⟩

theorem consistent_openFromFile {pk content : String} {docs : List Doc}
    {c : Coll} (h : Coll.openFromFile pk content docs = .ok c) :
    Consistent c ∧ c.pk = pk := by
  unfold Coll.openFromFile at h
  simp only [Bind.bind, Except.bind] at h
  cases hfd : Coll.fromDocs pk docs with
  | error e => rw [hfd] at h; simp at h
  | ok c1 =>
      rw [hfd] at h
      simp only [Except.ok.injEq] at h
      subst h
      obtain ⟨hc1, hpk1⟩ := consistent_fromDocs hfd
      exact ⟨consistent_of_eq_core hc1 rfl rfl rfl rfl, hpk1⟩

theorem flush_ok {c c' : Coll} (h : c.flush = .ok c') :
    c'.pk = c.pk ∧ c'.docs? = c.docs? ∧ c'.dirty = c.dirty ∧
      c'.indexes = c.indexes := by
  cases hds : c.docs? with
  | none =>
      unfold Coll.flush Coll.assertOpen at h
      rw [hds] at h
      simp [Bind.bind, Except.bind] at h
  | some ds =>
      unfold Coll.flush Coll.assertOpen at h
      rw [hds] at h
      simp only [Bind.bind, Except.bind] at h
      split_ifs at h with hrf
      · cases hf : c.file? with
        | none =>
            rw [hf] at h
            simp only [Except.ok.injEq] at h
            obtain rfl := h.symm
            exact ⟨rfl, rfl, rfl, rfl⟩
        | some f =>
            rw [hf] at h
            simp only [Except.ok.injEq] at h
            obtain rfl := h.symm
            exact ⟨rfl, rfl, rfl, rfl⟩
      · simp only [Except.ok.injEq] at h
        obtain rfl := h.symm
        exact ⟨rfl, hds, rfl, rfl⟩

theorem consistent_flush {c c' : Coll} (hc : Consistent c)
    (h : c.flush = .ok c') : Consistent c' ∧ c'.pk = c.pk := by
  obtain ⟨h1, h2, h3, h4⟩ := flush_ok h
  exact ⟨consistent_of_eq_core hc h1 h2 h3 h4, h1⟩

/-- What a query step preserves: consistency plus the identity of the
primary key and the document store. -/
def PreservedFrom (c c' : Coll) : Prop :=
  Consistent c' ∧ c'.pk = c.pk ∧ c'.docs? = c.docs?

theorem preservedFrom_trans {c c1 c2 : Coll} (h1 : PreservedFrom c c1)
    (h2 : PreservedFrom c1 c2) : PreservedFrom c c2 :=
  ⟨h2.1, by rw [h2.2.1, h1.2.1], by rw [h2.2.2, h1.2.2]⟩

theorem preservedFrom_refl {c : Coll} (hc : Consistent c) :
    PreservedFrom c c := ⟨hc, rfl, rfl⟩

theorem consistent_findExpression {c : Coll} {key : String} {v : Val}
    {c' : Coll} {m : Finset String} (hc : Consistent c)
    (h : findExpression c key v = .ok (c', m)) : PreservedFrom c c' := by
  unfold findExpression at h
  by_cases h1 : hasDollar key
  · rw [if_pos h1] at h
    by_cases h2 : key.toList.count '$' > 1
    · rw [if_pos h2] at h
      simp at h
    · rw [if_neg h2] at h
      by_cases h3 : startsDollar ((splitDots key).getLastD "")
      · rw [if_neg (by simpa using h3)] at h
        by_cases h4 : INDEX_OPERATORS.contains ((splitDots key).getLastD "")
        · rw [if_pos h4] at h
          simp only [Bind.bind, Except.bind] at h
          cases him : c.indexMethod
              (joinDots (splitDots key).dropLast) true with
          | error e => rw [him] at h; simp at h
          | ok p =>
              obtain ⟨c1, idx⟩ := p
              rw [him] at h
              simp only at h
              cases hop : findWithIndexOperator idx
                  ((splitDots key).getLastD "") v with
              | error e => rw [hop] at h; simp at h
              | ok m1 =>
                  rw [hop] at h
                  simp only [Except.ok.injEq, Prod.mk.injEq] at h
                  obtain ⟨rfl, rfl⟩ := h
                  obtain ⟨hh1, hh2, hh3⟩ := consistent_indexMethod hc him
                  exact ⟨hh1, hh2, hh3⟩
        · rw [if_neg h4] at h
          by_cases h5 : (splitDots key).getLastD "" = "$exists"
          · rw [if_pos h5] at h
            cases v with
            | bool b =>
                simp only [Bind.bind, Except.bind] at h
                cases him : c.indexMethod
                    (joinDots (splitDots key).dropLast) true with
                | error e => rw [him] at h; simp at h
                | ok p =>
                    obtain ⟨c1, idx⟩ := p
                    rw [him] at h
                    simp only [Except.ok.injEq, Prod.mk.injEq] at h
                    obtain ⟨rfl, rfl⟩ := h
                    obtain ⟨hh1, hh2, hh3⟩ := consistent_indexMethod hc him
                    exact ⟨hh1, hh2, hh3⟩
            | null => simp at h
            | int n => simp at h
            | str s => simp at h
            | list xs => simp at h
            | tup xs => simp at h
            | dict es => simp at h
          · rw [if_neg h5] at h
            simp at h
      · rw [if_pos (by simpa using h3)] at h
        simp at h
  · rw [if_neg h1] at h
    simp only [Bind.bind, Except.bind] at h
    cases him : c.indexMethod key true with
    | error e => rw [him] at h; simp at h
    | ok p =>
        obtain ⟨c1, idx⟩ := p
        rw [him] at h
        simp only at h
        obtain ⟨hh1, hh2, hh3⟩ := consistent_indexMethod hc him
        cases v with
        | dict es => simp at h
        | list xs => simp at h
        | null =>
            simp only [Except.ok.injEq, Prod.mk.injEq] at h
            obtain ⟨rfl, rfl⟩ := h
            exact ⟨hh1, hh2, hh3⟩
        | bool b =>
            simp only [Except.ok.injEq, Prod.mk.injEq] at h
            obtain ⟨rfl, rfl⟩ := h
            exact ⟨hh1, hh2, hh3⟩
        | int n =>
            simp only [Except.ok.injEq, Prod.mk.injEq] at h
            obtain ⟨rfl, rfl⟩ := h
            exact ⟨hh1, hh2, hh3⟩
        | str s =>
            simp only [Except.ok.injEq, Prod.mk.injEq] at h
            obtain ⟨rfl, rfl⟩ := h
            exact ⟨hh1, hh2, hh3⟩
        | tup xs =>
            simp only [Except.ok.injEq, Prod.mk.injEq] at h
            obtain ⟨rfl, rfl⟩ := h
            exact ⟨hh1, hh2, hh3⟩

theorem consistent_findPairs {ps : List (String × Val)} {c : Coll}
    {r : Option (Finset String)} {c' : Coll} {out : PairsOut}
    (hc : Consistent c) (h : findPairs c ps r = .ok (c', out)) :
    PreservedFrom c c' := by
  induction ps generalizing c r with
  | nil =>
      unfold findPairs at h
      simp only [Except.ok.injEq, Prod.mk.injEq] at h
      obtain ⟨rfl, rfl⟩ := h
      exact preservedFrom_refl hc
  | cons p rest ih =>
      obtain ⟨k, v⟩ := p
      unfold findPairs at h
      simp only [Bind.bind, Except.bind] at h
      cases hfe : findExpression c k v with
      | error e => rw [hfe] at h; simp at h
      | ok q =>
          obtain ⟨c1, m⟩ := q
          rw [hfe] at h
          simp only at h
          have hp1 := consistent_findExpression hc hfe
          split_ifs at h with hemp
          · simp only [Except.ok.injEq, Prod.mk.injEq] at h
            obtain ⟨rfl, rfl⟩ := h
            exact hp1
          · exact preservedFrom_trans hp1 (ih hp1.1 h)

theorem consistent_findResult :
    ∀ (c : Coll) (f : Val) (c' : Coll) (r : Finset String),
      findResult c f = .ok (c', r) → Consistent c → PreservedFrom c c' := by
  have main := findResult.induct
    (fun c f => ∀ c' r, findResult c f = .ok (c', r) →
      Consistent c → PreservedFrom c c')
    (fun c r ov => ∀ c' r2, orPhase c r ov = .ok (c', r2) →
      Consistent c → PreservedFrom c c')
    (fun c fs => ∀ c' rs, findResultList c fs = .ok (c', rs) →
      Consistent c → PreservedFrom c c')
    (fun c r av => ∀ c' r2, andPhase c r av = .ok (c', r2) →
      Consistent c → PreservedFrom c c')
    (fun c r nv => ∀ c' r2, notPhase c r nv = .ok (c', r2) →
      Consistent c → PreservedFrom c c')
  intro c f c' r h hc
  refine main ?_ ?_ ?_ ?_ ?_ ?_ ?_ ?_ ?_ ?_ ?_ ?_ ?_ ?_ c f c' r h hc
  · -- the findResult body
    clear h hc c f c' r
    intro c f ihs c' r h hc
    rw [findResult.eq_def] at h
    simp only [Bind.bind, Except.bind] at h
    cases f with
    | null => simp [pyLen] at h
    | bool b => simp [pyLen] at h
    | int m => simp [pyLen] at h
    | str s =>
        simp only [pyLen] at h
        split_ifs at h with hn0
        simp only [Except.ok.injEq, Prod.mk.injEq] at h
        obtain ⟨rfl, rfl⟩ := h
        exact preservedFrom_refl hc
    | list xs =>
        simp only [pyLen] at h
        split_ifs at h with hn0
        simp only [Except.ok.injEq, Prod.mk.injEq] at h
        obtain ⟨rfl, rfl⟩ := h
        exact preservedFrom_refl hc
    | tup xs =>
        simp only [pyLen] at h
        split_ifs at h with hn0
        simp only [Except.ok.injEq, Prod.mk.injEq] at h
        obtain ⟨rfl, rfl⟩ := h
        exact preservedFrom_refl hc
    | dict es =>
        simp only [pyLen] at h
        split_ifs at h with hn0
        · simp only [Except.ok.injEq, Prod.mk.injEq] at h
          obtain ⟨rfl, rfl⟩ := h
          exact preservedFrom_refl hc
        · obtain ⟨ihNot, ihAnd, ihOr⟩ := ihs
          cases hr0 : pkShortCircuit c (alistGet es c.pk) with
          | error e => rw [hr0] at h; simp at h
          | ok r0 =>
              rw [hr0] at h
              simp only at h
              cases hfp : findPairs c
                  (traverseFilterEntries (popResidue c.pk es)) r0 with
              | error e => rw [hfp] at h; simp at h
              | ok p =>
                  obtain ⟨c1, out⟩ := p
                  rw [hfp] at h
                  simp only at h
                  have hp1 := consistent_findPairs hc hfp
                  cases out with
                  | empty =>
                      simp only [Except.ok.injEq, Prod.mk.injEq] at h
                      obtain ⟨rfl, rfl⟩ := h
                      exact hp1
                  | acc racc =>
                      simp only [Bind.bind, Except.bind] at h
                      cases hnp : notPhase c1 racc (alistGet (alistDel
                          (alistDel (alistDel es c.pk) "$or") "$and")
                          "$not") with
                      | error e => rw [hnp] at h; simp at h
                      | ok q2 =>
                          obtain ⟨c2, rn⟩ := q2
                          rw [hnp] at h
                          simp only at h
                          have hp2 := ihNot c1 racc c2 rn hnp hp1.1
                          cases hap : andPhase c2 rn (alistGet (alistDel
                              (alistDel es c.pk) "$or") "$and") with
                          | error e => rw [hap] at h; simp at h
                          | ok q3 =>
                              obtain ⟨c3, ra⟩ := q3
                              rw [hap] at h
                              simp only at h
                              have hp3 := ihAnd c2 rn c3 ra hap hp2.1
                              cases hop : orPhase c3 ra
                                  (alistGet (alistDel es c.pk) "$or") with
                              | error e => rw [hop] at h; simp at h
                              | ok q4 =>
                                  obtain ⟨c4, ro⟩ := q4
                                  rw [hop] at h
                                  simp only at h
                                  have hp4 := ihOr c3 ra c4 ro hop hp3.1
                                  cases ro with
                                  | none => simp at h
                                  | some s =>
                                      simp only [Except.ok.injEq,
                                        Prod.mk.injEq] at h
                                      obtain ⟨rfl, rfl⟩ := h
                                      exact preservedFrom_trans hp1
                                        (preservedFrom_trans hp2
                                          (preservedFrom_trans hp3 hp4))
  · -- orPhase, none
    intro c0 r0 c' r2 h hc0
    rw [orPhase.eq_def] at h
    simp only [Except.ok.injEq, Prod.mk.injEq] at h
    obtain ⟨rfl, rfl⟩ := h
    exact preservedFrom_refl hc0
  · -- orPhase, null
    intro c0 r0 c' r2 h hc0
    rw [orPhase.eq_def] at h
    simp only [Except.ok.injEq, Prod.mk.injEq] at h
    obtain ⟨rfl, rfl⟩ := h
    exact preservedFrom_refl hc0
  · -- orPhase, bad logical argument
    intro c0 r0 nf hnn e hce c' r2 h hc0
    rw [orPhase.eq_def] at h
    split at h
    · rename_i heq
      simp at heq
    · rename_i heq
      injection heq with heq2
      exact absurd heq2 hnn
    · rename_i v heq
      injection heq with heq2
      subst heq2
      split at h
      · simp at h
      · rename_i fs2 heq3
        rw [hce] at heq3
        simp at heq3
  · -- orPhase, list argument
    intro c0 r0 nf hnn fs hcf ih c' r2 h hc0
    rw [orPhase.eq_def] at h
    split at h
    · rename_i heq
      simp at heq
    · rename_i heq
      injection heq with heq2
      exact absurd heq2 hnn
    · rename_i v heq
      injection heq with heq2
      subst heq2
      split at h
      · rename_i e2 heq3
        rw [hcf] at heq3
        simp at heq3
      · rename_i fs2 heq3
        rw [hcf] at heq3
        injection heq3 with heq4
        subst heq4
        simp only [Bind.bind, Except.bind] at h
        cases hfl : findResultList c0 fs with
        | error e => rw [hfl] at h; simp at h
        | ok q =>
            obtain ⟨c2, rs⟩ := q
            rw [hfl] at h
            simp only [Except.ok.injEq, Prod.mk.injEq] at h
            obtain ⟨rfl, rfl⟩ := h
            exact ih c2 rs hfl hc0
  · -- findResultList, nil
    intro c0 c' rs h hc0
    rw [findResultList.eq_def] at h
    simp only [Except.ok.injEq, Prod.mk.injEq] at h
    obtain ⟨rfl, rfl⟩ := h
    exact preservedFrom_refl hc0
  · -- findResultList, cons
    intro c0 x xs ih1 ih2 c' rs h hc0
    rw [findResultList.eq_def] at h
    simp only [Bind.bind, Except.bind] at h
    cases hx : findResult c0 x with
    | error e => rw [hx] at h; simp at h
    | ok p =>
        obtain ⟨c2, m⟩ := p
        rw [hx] at h
        simp only at h
        cases hrest : findResultList c2 xs with
        | error e => rw [hrest] at h; simp at h
        | ok q =>
            obtain ⟨c3, ms⟩ := q
            rw [hrest] at h
            simp only [Except.ok.injEq, Prod.mk.injEq] at h
            obtain ⟨rfl, rfl⟩ := h
            have hpa := ih1 c2 m hx hc0
            have hpb := ih2 c2 c3 ms hrest hpa.1
            exact preservedFrom_trans hpa hpb
  · -- andPhase, none
    intro c0 r0 c' r2 h hc0
    rw [andPhase.eq_def] at h
    simp only [Except.ok.injEq, Prod.mk.injEq] at h
    obtain ⟨rfl, rfl⟩ := h
    exact preservedFrom_refl hc0
  · -- andPhase, null
    intro c0 r0 c' r2 h hc0
    rw [andPhase.eq_def] at h
    simp only [Except.ok.injEq, Prod.mk.injEq] at h
    obtain ⟨rfl, rfl⟩ := h
    exact preservedFrom_refl hc0
  · -- andPhase, bad logical argument
    intro c0 r0 nf hnn e hce c' r2 h hc0
    rw [andPhase.eq_def] at h
    split at h
    · rename_i heq
      simp at heq
    · rename_i heq
      injection heq with heq2
      exact absurd heq2 hnn
    · rename_i v heq
      injection heq with heq2
      subst heq2
      split at h
      · simp at h
      · rename_i fs2 heq3
        rw [hce] at heq3
        simp at heq3
  · -- andPhase, list argument
    intro c0 r0 nf hnn fs hcf ih c' r2 h hc0
    rw [andPhase.eq_def] at h
    split at h
    · rename_i heq
      simp at heq
    · rename_i heq
      injection heq with heq2
      exact absurd heq2 hnn
    · rename_i v heq
      injection heq with heq2
      subst heq2
      split at h
      · rename_i e2 heq3
        rw [hcf] at heq3
        simp at heq3
      · rename_i fs2 heq3
        rw [hcf] at heq3
        injection heq3 with heq4
        subst heq4
        simp only [Bind.bind, Except.bind] at h
        cases hfl : findResultList c0 fs with
        | error e => rw [hfl] at h; simp at h
        | ok q =>
            obtain ⟨c2, rs⟩ := q
            rw [hfl] at h
            simp only [Except.ok.injEq, Prod.mk.injEq] at h
            obtain ⟨rfl, rfl⟩ := h
            exact ih c2 rs hfl hc0
  · -- notPhase, none
    intro c0 r0 c' r2 h hc0
    rw [notPhase.eq_def] at h
    simp only [Except.ok.injEq, Prod.mk.injEq] at h
    obtain ⟨rfl, rfl⟩ := h
    exact preservedFrom_refl hc0
  · -- notPhase, null
    intro c0 r0 c' r2 h hc0
    rw [notPhase.eq_def] at h
    simp only [Except.ok.injEq, Prod.mk.injEq] at h
    obtain ⟨rfl, rfl⟩ := h
    exact preservedFrom_refl hc0
  · -- notPhase, sub-filter
    intro c0 r0 nf hnn ih c' r2 h hc0
    rw [notPhase.eq_def] at h
    split at h
    · rename_i heq
      simp at heq
    · rename_i heq
      injection heq with heq2
      exact absurd heq2 hnn
    · rename_i v heq
      injection heq with heq2
      subst heq2
      simp only [Bind.bind, Except.bind] at h
      cases hx : findResult c0 nf with
      | error e => rw [hx] at h; simp at h
      | ok p =>
          obtain ⟨c2, nm⟩ := p
          rw [hx] at h
          simp only [Except.ok.injEq, Prod.mk.injEq] at h
          obtain ⟨rfl, rfl⟩ := h
          exact ih c2 nm hx hc0

theorem consistent_findIds {c : Coll} {filter : Option Val} {limit : Nat}
    {c' : Coll} {r : Finset String} (hc : Consistent c)
    (h : c.findIds filter limit = .ok (c', r)) :
    Consistent c' ∧ c'.pk = c.pk ∧ c'.docs? = c.docs? := by
  obtain ⟨ds, hds, _, _, _, _⟩ := id hc
  unfold Coll.findIds at h
  rw [show c.assertOpen = .ok ds from by unfold Coll.assertOpen; rw [hds]] at h
  simp only [Bind.bind, Except.bind] at h
  cases hcf : checkFilter (filter.map normalize) with
  | error e => rw [hcf] at h; simp at h
  | ok u =>
      rw [hcf] at h
      simp only at h
      cases hnf : filter.map normalize with
      | none =>
          rw [hnf] at h
          simp only [Except.ok.injEq, Prod.mk.injEq] at h
          obtain ⟨rfl, rfl⟩ := h
          exact ⟨hc, rfl, rfl⟩
      | some f =>
          rw [hnf] at h
          simp only [Bind.bind, Except.bind] at h
          cases hn : pyLen f with
          | error e => rw [hn] at h; simp at h
          | ok n =>
              rw [hn] at h
              simp only at h
              by_cases hn0 : n = 0
              · rw [if_pos hn0] at h
                simp only [Except.ok.injEq, Prod.mk.injEq] at h
                obtain ⟨rfl, rfl⟩ := h
                exact ⟨hc, rfl, rfl⟩
              · rw [if_neg hn0] at h
                cases hfr : findResult c f with
                | error e => rw [hfr] at h; simp at h
                | ok p =>
                    obtain ⟨c1, r1⟩ := p
                    rw [hfr] at h
                    simp only [Except.ok.injEq, Prod.mk.injEq] at h
                    obtain ⟨rfl, rfl⟩ := h
                    exact consistent_findResult c f c1 r1 hfr hc

/-- Every state reachable through the public API satisfies the full
invariant. -/
theorem reachable_consistent {c : Coll} (h : Reachable c) : Consistent c := by
  induction h with
  | init pk => exact consistent_empty pk
  | fromDocs hok => exact (consistent_fromDocs hok).1
  | openFile hok => exact (consistent_openFromFile hok).1
  | setItemStep _ hstep ih => exact (consistent_setItem ih hstep).1
  | insertOneStep _ hstep ih => exact (consistent_insertOne ih hstep).1
  | delItemStep _ hstep ih => exact (consistent_delItem ih hstep).1
  | clearStep _ hstep ih => exact (consistent_clear hstep).1
  | updateStep _ hstep ih => exact (consistent_update ih hstep).1
  | updateIndexesStep _ ih => exact (consistent_updateIndexes ih).1
  | indexStep _ hstep ih => exact (consistent_indexMethod ih hstep).1
  | findStep _ hstep ih => exact (consistent_findIds ih hstep).1
  | flushStep _ hstep ih => exact (consistent_flush ih hstep).1

/-- **C2**: index-consistency invariant.  For every collection state
reachable by any sequence of operations and for every built index on key
`k`: if id `i` is not dirty then `i` is a member of bucket `v` iff
`_build_index` resolves `k` on the stored document of `i` to a value whose
canonical form is `v` (with `DICT_PLACEHOLDER` for mapping-valued
resolutions, and including the literal flat dotted key), and after
`_update_indexes` runs the dirty set is empty and the same holds for every
id unconditionally. -/
theorem C2_index_consistency (c : Coll) (h : Reachable c) :
    (∀ e ∈ c.indexes, ∀ i, i ∉ c.dirty → ∀ v,
        idxHas e.2 v i ↔ ∃ d, alistGet c.docsList i = some d ∧
          v ∈ docIndexKeys (splitDots e.1) d) ∧
    c.updateIndexes.dirty = [] ∧
    (∀ e ∈ c.updateIndexes.indexes, ∀ i v,
        idxHas e.2 v i ↔ ∃ d, alistGet c.updateIndexes.docsList i = some d ∧
          v ∈ docIndexKeys (splitDots e.1) d) := by
  have hc := reachable_consistent h
  refine ⟨?_, ?_, ?_⟩
  · obtain ⟨ds, hds, _, _, _, hidx⟩ := id hc
    intro e he i hi v
    have hgoal := (hidx e he).2 i hi v
    unfold Coll.docsList
    rw [hds]
    simpa using hgoal
  · exact (consistent_updateIndexes hc).2.2.2.1
  · obtain ⟨hcu, _, _, hud, _, _⟩ := consistent_updateIndexes hc
    obtain ⟨ds2, hds2, _, _, _, hidx2⟩ := hcu
    intro e he i v
    have hgoal := (hidx2 e he).2 i (by rw [hud]; simp) v
    unfold Coll.docsList
    rw [hds2]
    simpa using hgoal

/-- A small reachable state used to instantiate `C2_index_consistency`:
one document and one built index. -/
def c2wBase : Coll :=
  { pk := "_id",
    docs? := some [("a", [("_id", .str "a"), ("k", .int 1)])],
    dirty := [], indexes := [], requiresFlush := false,
    file? := some ⟨"", 0⟩ }

def c2wIndexed : Coll :=
  { c2wBase with indexes := [("k", [(.val (.int 1), {"a"})])] }

theorem C2_index_consistency_witness :
    (∀ e ∈ c2wIndexed.indexes, ∀ i, i ∉ c2wIndexed.dirty → ∀ v,
        idxHas e.2 v i ↔ ∃ d, alistGet c2wIndexed.docsList i = some d ∧
          v ∈ docIndexKeys (splitDots e.1) d) ∧
    c2wIndexed.updateIndexes.dirty = [] ∧
    (∀ e ∈ c2wIndexed.updateIndexes.indexes, ∀ i v,
        idxHas e.2 v i ↔
          ∃ d, alistGet c2wIndexed.updateIndexes.docsList i = some d ∧
            v ∈ docIndexKeys (splitDots e.1) d) := by
  refine C2_index_consistency c2wIndexed
    (@Reachable.indexStep c2wBase "k" true c2wIndexed
      [(.val (.int 1), {"a"})]
      (@Reachable.fromDocs "_id" [[("_id", .str "a"), ("k", .int 1)]]
        c2wBase ?_) ?_)
  · decide
  · decide

/-!
## Heap lemmas for the shallow-copy analysis
-/

theorem kalistSet_of_get_none {α β : Type} [DecidableEq α]
    {l : List (α × β)} {k : α} (h : kalistGet l k = none) (v : β) :
    kalistSet l k v = l ++ [(k, v)] := by
  induction l with
  | nil => simp [kalistSet]
  | cons e rest ih =>
      obtain ⟨k0, w⟩ := e
      by_cases hk : k0 = k
      · subst hk
        simp [kalistGet] at h
      · simp only [kalistGet, hk, if_neg, ite_false] at h
        simp [kalistSet, hk, ih h]

theorem kalistSet_kalistSet_same {α β : Type} [DecidableEq α]
    (l : List (α × β)) (k : α) (v w : β) :
    kalistSet (kalistSet l k v) k w = kalistSet l k w := by
  induction l with
  | nil => simp [kalistSet]
  | cons e rest ih =>
      obtain ⟨k0, u⟩ := e
      by_cases hk : k0 = k
      · subst hk
        simp [kalistSet]
      · simp [kalistSet, hk, ih]

/-- Rendering is unaffected by binding a fresh address: every successful
render in `h` still succeeds, with the same value, after `b` (unbound in
`h`) is bound to anything. -/
theorem render_set_fresh (h : Heap) (b : Nat) (o : HObj)
    (hb : kalistGet h b = none) :
    ∀ fuel,
      (∀ a v, renderObj h fuel a = some v →
        renderObj (kalistSet h b o) fuel a = some v) ∧
      (∀ as vs, renderAddrs h fuel as = some vs →
        renderAddrs (kalistSet h b o) fuel as = some vs) ∧
      (∀ es ves, renderAddrEntries h fuel es = some ves →
        renderAddrEntries (kalistSet h b o) fuel es = some ves) := by
  intro fuel
  induction fuel with
  | zero =>
      refine ⟨?_, ?_, ?_⟩
      · intro a v hr
        rw [renderObj] at hr
        exact Option.noConfusion hr
      · intro as vs hr
        cases as with
        | nil => simpa [renderAddrs] using hr
        | cons a rest =>
            rw [renderAddrs, renderObj] at hr
            simp at hr
      · intro es ves hr
        cases es with
        | nil => simpa [renderAddrEntries] using hr
        | cons e rest =>
            obtain ⟨k, a⟩ := e
            rw [renderAddrEntries, renderObj] at hr
            simp at hr
  | succ f ih =>
      obtain ⟨iho, iha, ihe⟩ := ih
      have hobj : ∀ a v, renderObj h (f + 1) a = some v →
          renderObj (kalistSet h b o) (f + 1) a = some v := by
        intro a v hr
        rw [renderObj] at hr
        have hne : ∀ obj, kalistGet h a = some obj → a ≠ b := by
          intro obj hga he
          rw [← he, hga] at hb
          exact Option.noConfusion hb
        split at hr
        · exact Option.noConfusion hr
        · rename_i w heq
          rw [renderObj]
          rw [show kalistGet (kalistSet h b o) a = some (.scalarO w) by
            rw [kalistGet_kalistSet, if_neg (hne _ heq), heq]]
          exact hr
        · rename_i es heq
          rw [renderObj]
          rw [show kalistGet (kalistSet h b o) a = some (.listO es) by
            rw [kalistGet_kalistSet, if_neg (hne _ heq), heq]]
          show Option.map Val.list (renderAddrs (kalistSet h b o) f es) =
            some v
          cases hvs : renderAddrs h f es with
          | none => rw [hvs] at hr; exact absurd hr (by simp)
          | some vs =>
              rw [hvs] at hr
              rw [iha es vs hvs]
              exact hr
        · rename_i es heq
          rw [renderObj]
          rw [show kalistGet (kalistSet h b o) a = some (.dictO es) by
            rw [kalistGet_kalistSet, if_neg (hne _ heq), heq]]
          show Option.map Val.dict
              (renderAddrEntries (kalistSet h b o) f es) = some v
          cases hves : renderAddrEntries h f es with
          | none => rw [hves] at hr; exact absurd hr (by simp)
          | some ves =>
              rw [hves] at hr
              rw [ihe es ves hves]
              exact hr
      refine ⟨hobj, ?_, ?_⟩
      · intro as
        induction as with
        | nil => intro vs hr; simpa [renderAddrs] using hr
        | cons a rest ihl =>
            intro vs hr
            simp only [renderAddrs, Bind.bind, Option.bind] at hr ⊢
            cases hro : renderObj h (f + 1) a with
            | none => rw [hro] at hr; simp at hr
            | some v0 =>
                rw [hro] at hr
                cases hrr : renderAddrs h (f + 1) rest with
                | none => rw [hrr] at hr; simp at hr
                | some vs0 =>
                    rw [hrr] at hr
                    rw [hobj a v0 hro, ihl vs0 hrr]
                    exact hr
      · intro es
        induction es with
        | nil => intro ves hr; simpa [renderAddrEntries] using hr
        | cons e rest ihl =>
            obtain ⟨k, a⟩ := e
            intro ves hr
            simp only [renderAddrEntries, Bind.bind, Option.bind] at hr ⊢
            cases hro : renderObj h (f + 1) a with
            | none => rw [hro] at hr; simp at hr
            | some v0 =>
                rw [hro] at hr
                cases hrr : renderAddrEntries h (f + 1) rest with
                | none => rw [hrr] at hr; simp at hr
                | some ves0 =>
                    rw [hrr] at hr
                    rw [hobj a v0 hro, ihl ves0 hrr]
                    exact hr

/-!
## Evaluation lemmas for the `_find_result` phases
-/

theorem notPhase_none (c : Coll) (r : Option (Finset String)) :
    notPhase c r none = .ok (c, r) := by
  rw [notPhase.eq_def]

theorem andPhase_none (c : Coll) (r : Option (Finset String)) :
    andPhase c r none = .ok (c, r) := by
  rw [andPhase.eq_def]

theorem orPhase_none (c : Coll) (r : Option (Finset String)) :
    orPhase c r none = .ok (c, r) := by
  rw [orPhase.eq_def]

theorem findResultList_nil (c : Coll) : findResultList c [] = .ok (c, []) := by
  rw [findResultList.eq_def]

theorem findResultList_cons (c : Coll) (g : Val) (rest : List Val) :
    findResultList c (g :: rest) = (do
      let (c1, m) ← findResult c g
      let (c2, ms) ← findResultList c1 rest
      .ok (c2, m :: ms)) := by
  rw [findResultList.eq_def]

theorem orPhase_list_cons (c : Coll) (r : Option (Finset String)) (x : Val)
    (xs : List Val) :
    orPhase c r (some (.list (x :: xs))) = (do
      let (c2, rs) ← findResultList c (x :: xs)
      .ok (c2, some (reduceResult r (rs.foldl (· ∪ ·) ∅)))) := by
  rw [orPhase.eq_def]
  split
  · rename_i heq
    exact Option.noConfusion heq
  · rename_i heq
    injection heq with heq2
    exact Val.noConfusion heq2
  · rename_i v heq
    injection heq with heq2
    subst heq2
    split
    · rename_i e he
      rw [show checkLogicalArg (.list (x :: xs)) = .ok (x :: xs) from rfl] at he
      exact Except.noConfusion he
    · rename_i fs he
      rw [show checkLogicalArg (.list (x :: xs)) = .ok (x :: xs) from rfl] at he
      injection he with he2
      rw [he2]

/-- The one-step unfolding of `_find_result` on a non-empty mapping. -/
theorem findResult_eval_dict (c : Coll) (es : List (String × Val))
    (hne : es ≠ []) :
    findResult c (.dict es) = (do
      let r0 ← pkShortCircuit c (alistGet es c.pk)
      let (c1, out) ← findPairs c (traverseFilterEntries (popResidue c.pk es)) r0
      match out with
      | .empty => .ok (c1, (∅ : Finset String))
      | .acc racc => do
          let (c2, rn) ← notPhase c1 racc
            (alistGet (alistDel (alistDel (alistDel es c.pk) "$or") "$and") "$not")
          let (c3, ra) ← andPhase c2 rn
            (alistGet (alistDel (alistDel es c.pk) "$or") "$and")
          let (c4, ro) ← orPhase c3 ra (alistGet (alistDel es c.pk) "$or")
          match ro with
          | some s => .ok (c4, s)
          | none => .error .assertionError) := by
  rw [findResult.eq_def]
  have hl : pyLen (Val.dict es) = .ok es.length := rfl
  simp only [hl, Bind.bind, Except.bind]
  rw [if_neg (by simpa using hne)]

/-- What a successful `_find` with no limit says about `_find_result`: the
zero-length branch of `_find` coincides with the zero-length branch of
`_find_result`, so both cases collapse into one equation. -/
theorem findIds_findResult {c c1 : Coll} {f : Val} {r : Finset String}
    (h : c.findIds (some f) 0 = .ok (c1, r)) :
    c.docs? ≠ none ∧ findResult c (normalize f) = .ok (c1, r) := by
  cases hds : c.docs? with
  | none =>
      unfold Coll.findIds at h
      rw [show c.assertOpen = .error .closedHandle from by
        unfold Coll.assertOpen; rw [hds]] at h
      simp [Bind.bind, Except.bind] at h
  | some ds =>
      refine ⟨by simp [hds], ?_⟩
      unfold Coll.findIds at h
      rw [show c.assertOpen = .ok ds from by
        unfold Coll.assertOpen; rw [hds]] at h
      simp only [Bind.bind, Except.bind, Option.map] at h
      cases hcf : checkFilter (some (normalize f)) with
      | error e => rw [hcf] at h; simp at h
      | ok u =>
          rw [hcf] at h
          simp only at h
          cases hl : pyLen (normalize f) with
          | error e => rw [hl] at h; simp at h
          | ok n =>
              rw [hl] at h
              simp only at h
              by_cases hn : n = 0
              · rw [if_pos hn] at h
                simp at h
                obtain ⟨rfl, rfl⟩ := h
                rw [findResult.eq_def]
                simp only [hl, Bind.bind, Except.bind]
                rw [if_pos hn]
                rfl
              · rw [if_neg hn] at h
                cases hfr : findResult c (normalize f) with
                | error e => rw [hfr] at h; simp at h
                | ok p =>
                    obtain ⟨c1', r'⟩ := p
                    rw [hfr] at h
                    simp [limitResult] at h
                    obtain ⟨rfl, rfl⟩ := h
                    rfl

/-- The state `find` leaves `oneDocColl` in after answering a query on key
`k`: the index on `"k"` has been built. -/
def oneDocCollK : Coll :=
  { oneDocColl with indexes := [("k", [(.val (.int 1), {"a"})])] }

/-- The state `find` leaves `c7Coll` in after answering a query on key
`a`: the index on `"a"` has been built (the stored list indexed as a
tuple). -/
def c7CollA : Coll :=
  { c7Coll with
    indexes := [("a", [(.val (.tup [.int 1, .int 2]), {"a1"})])] }

/-- A successful no-limit `_find` on a non-empty filter is exactly a
successful `_find_result` on the normalized filter. -/
theorem findIds_of_findResult {c c1 : Coll} {f : Val} {r : Finset String}
    {ds : List (String × Doc)} {n : Nat}
    (hds : c.docs? = some ds)
    (hcf : checkFilter (some (normalize f)) = .ok ())
    (hl : pyLen (normalize f) = .ok n) (hn : n ≠ 0)
    (hfr : findResult c (normalize f) = .ok (c1, r)) :
    c.findIds (some f) 0 = .ok (c1, r) := by
  unfold Coll.findIds
  rw [show c.assertOpen = .ok ds from by unfold Coll.assertOpen; rw [hds]]
  simp only [Bind.bind, Except.bind, Option.map]
  rw [hcf]
  simp only
  rw [hl]
  simp only
  rw [if_neg hn, hfr]
  simp [limitResult]

/-- The error counterpart of `findIds_of_findResult`. -/
theorem findIds_of_findResult_error {c : Coll} {f : Val} {e : Err}
    {ds : List (String × Doc)} {n : Nat}
    (hds : c.docs? = some ds)
    (hcf : checkFilter (some (normalize f)) = .ok ())
    (hl : pyLen (normalize f) = .ok n) (hn : n ≠ 0)
    (hfr : findResult c (normalize f) = .error e) :
    c.findIds (some f) 0 = .error e := by
  unfold Coll.findIds
  rw [show c.assertOpen = .ok ds from by unfold Coll.assertOpen; rw [hds]]
  simp only [Bind.bind, Except.bind, Option.map]
  rw [hcf]
  simp only
  rw [hl]
  simp only
  rw [if_neg hn, hfr]

/-!
## The claims
-/

/-- **C1**: the primary-key short circuit.  The spec says
`find({pk: id})` with an absent id returns the empty set; the code's
`_find_result` only reduces the result when the id *is* present, so an
absent id leaves the result unconstrained: a filter naming only an absent
primary id reaches `assert result is not None` and raises
`AssertionError`, and a filter with an absent primary id plus further
predicates returns the matches of the other predicates instead of the
empty set.  A present id does intersect the result with `{id}`. -/
theorem C1_primary_key_short_circuit :
    Coll.findIds oneDocColl (some (.dict [("_id", .str "missing")])) 0 =
      .error .assertionError ∧
    Coll.findIds oneDocColl
        (some (.dict [("_id", .str "missing"), ("k", .int 1)])) 0 =
      .ok (oneDocCollK, {"a"}) ∧
    Coll.findIds oneDocColl (some (.dict [("_id", .str "a")])) 0 =
      .ok (oneDocColl, {"a"}) := by
  refine ⟨?_, ?_, ?_⟩
  · have h1 : findResult oneDocColl (.dict [("_id", .str "missing")]) =
        .error .assertionError := by
      rw [findResult_eval_dict _ _ (by simp)]
      rw [show alistGet [("_id", Val.str "missing")] oneDocColl.pk =
        some (.str "missing") from by decide]
      rw [show pkShortCircuit oneDocColl (some (.str "missing")) =
        .ok none from by decide]
      rw [show traverseFilterEntries
          (popResidue oneDocColl.pk [("_id", Val.str "missing")]) = []
        from by decide]
      simp only [Bind.bind, Except.bind, findPairs]
      rw [show alistGet (alistDel (alistDel (alistDel
          [("_id", Val.str "missing")] oneDocColl.pk) "$or") "$and") "$not" =
        none from by decide]
      rw [notPhase_none]
      rw [show alistGet (alistDel (alistDel
          [("_id", Val.str "missing")] oneDocColl.pk) "$or") "$and" =
        none from by decide]
      rw [show alistGet (alistDel [("_id", Val.str "missing")]
          oneDocColl.pk) "$or" = none from by decide]
      simp only [Bind.bind, Except.bind, andPhase_none, orPhase_none]
    exact @findIds_of_findResult_error oneDocColl
      (Val.dict [("_id", Val.str "missing")]) Err.assertionError
      [("a", [("_id", Val.str "a"), ("k", Val.int 1)])] 1
      (by decide) (by decide) (by decide) (by decide)
      (by rw [show normalize (Val.dict [("_id", Val.str "missing")]) =
          Val.dict [("_id", Val.str "missing")] from by decide]
          exact h1)
  · have h1 : findResult oneDocColl
        (.dict [("_id", .str "missing"), ("k", .int 1)]) =
        .ok (oneDocCollK, {"a"}) := by
      rw [findResult_eval_dict _ _ (by simp)]
      rw [show alistGet [("_id", Val.str "missing"), ("k", Val.int 1)]
        oneDocColl.pk = some (.str "missing") from by decide]
      rw [show pkShortCircuit oneDocColl (some (.str "missing")) =
        .ok none from by decide]
      rw [show traverseFilterEntries (popResidue oneDocColl.pk
          [("_id", Val.str "missing"), ("k", Val.int 1)]) = [("k", .int 1)]
        from by decide]
      simp only [Bind.bind, Except.bind]
      rw [show findPairs oneDocColl [("k", .int 1)] none =
        .ok (oneDocCollK, .acc (some {"a"})) from by decide]
      simp only
      rw [show alistGet (alistDel (alistDel (alistDel
          [("_id", Val.str "missing"), ("k", Val.int 1)] oneDocColl.pk)
          "$or") "$and") "$not" = none from by decide]
      rw [notPhase_none]
      rw [show alistGet (alistDel (alistDel
          [("_id", Val.str "missing"), ("k", Val.int 1)] oneDocColl.pk)
          "$or") "$and" = none from by decide]
      rw [show alistGet (alistDel
          [("_id", Val.str "missing"), ("k", Val.int 1)] oneDocColl.pk)
          "$or" = none from by decide]
      simp only [Bind.bind, Except.bind, andPhase_none, orPhase_none]
    exact @findIds_of_findResult oneDocColl oneDocCollK
      (Val.dict [("_id", Val.str "missing"), ("k", Val.int 1)]) {"a"}
      [("a", [("_id", Val.str "a"), ("k", Val.int 1)])] 2
      (by decide) (by decide) (by decide) (by decide)
      (by rw [show normalize
          (Val.dict [("_id", Val.str "missing"), ("k", Val.int 1)]) =
          Val.dict [("_id", Val.str "missing"), ("k", Val.int 1)]
          from by decide]
          exact h1)
  · have h1 : findResult oneDocColl (.dict [("_id", .str "a")]) =
        .ok (oneDocColl, {"a"}) := by
      rw [findResult_eval_dict _ _ (by simp)]
      rw [show alistGet [("_id", Val.str "a")] oneDocColl.pk =
        some (.str "a") from by decide]
      rw [show pkShortCircuit oneDocColl (some (.str "a")) =
        .ok (some {"a"}) from by decide]
      rw [show traverseFilterEntries
          (popResidue oneDocColl.pk [("_id", Val.str "a")]) = []
        from by decide]
      simp only [Bind.bind, Except.bind, findPairs]
      rw [show alistGet (alistDel (alistDel (alistDel
          [("_id", Val.str "a")] oneDocColl.pk) "$or") "$and") "$not" =
        none from by decide]
      rw [notPhase_none]
      rw [show alistGet (alistDel (alistDel [("_id", Val.str "a")]
          oneDocColl.pk) "$or") "$and" = none from by decide]
      rw [show alistGet (alistDel [("_id", Val.str "a")] oneDocColl.pk)
          "$or" = none from by decide]
      simp only [Bind.bind, Except.bind, andPhase_none, orPhase_none]
    exact @findIds_of_findResult oneDocColl oneDocColl
      (Val.dict [("_id", Val.str "a")]) {"a"}
      [("a", [("_id", Val.str "a"), ("k", Val.int 1)])] 1
      (by decide) (by decide) (by decide) (by decide)
      (by rw [show normalize (Val.dict [("_id", Val.str "a")]) =
          Val.dict [("_id", Val.str "a")] from by decide]
          exact h1)

/-- **C3**: flush truncates at the current stream position (end of the
already-read content), not at zero.  Opening a collection from a file,
inserting one document and flushing leaves the old file content as a
residue before the fresh dump, instead of the file holding exactly the
NDJSON dump of the current documents. -/
theorem C3_flush_keeps_residue :
    c3Run.map (Option.map (fun fs => fs.content)) =
      .ok (some (ndjson c3Docs0 ++
        ndjson [[("_id", .str "a")], [("k", .int 1), ("_id", .str "b")]])) ∧
    ndjson c3Docs0 ++
        ndjson [[("_id", .str "a")], [("k", .int 1), ("_id", .str "b")]] ≠
      ndjson [[("_id", .str "a")], [("k", .int 1), ("_id", .str "b")]] := by
  decide

/-- **C4** (amended): `__getitem__` returns `self._docs[_id].copy()` — a
*shallow* copy.  The returned value is value-equal to the stored document,
and re-binding the copy itself (mutating its top level) leaves the stored
document unchanged; the deep-copy half of the original claim is refuted by
`C4_deep_mutation_counterexample`. -/
theorem C4_get_shallow_copy (c : Coll) (i : String) (d : Doc) (hp : Heap)
    (a cNew fuel : Nat) (es : List (String × Nat)) (v : Val) (o : HObj)
    (hget : c.getItem i = .ok d)
    (ha : kalistGet hp a = some (.dictO es))
    (hNew : kalistGet hp cNew = none)
    (hr : renderObj hp fuel a = some v) :
    alistGet c.docsList i = some d ∧
    renderObj (shallowCopyAt hp a cNew) fuel cNew = some v ∧
    renderObj (heapSet (shallowCopyAt hp a cNew) cNew o) fuel a = some v := by
  have hset : shallowCopyAt hp a cNew = kalistSet hp cNew (.dictO es) := by
    unfold shallowCopyAt
    rw [ha, kalistSet_of_get_none hNew]
  cases fuel with
  | zero =>
      rw [renderObj] at hr
      exact Option.noConfusion hr
  | succ f =>
      have hr' := hr
      rw [renderObj] at hr
      simp only [ha] at hr
      refine ⟨?_, ?_, ?_⟩
      · unfold Coll.getItem at hget
        cases hds : c.docs? with
        | none =>
            rw [show c.assertOpen = .error .closedHandle from by
              unfold Coll.assertOpen; rw [hds]] at hget
            simp [Bind.bind, Except.bind] at hget
        | some ds =>
            rw [show c.assertOpen = .ok ds from by
              unfold Coll.assertOpen; rw [hds]] at hget
            simp only [Bind.bind, Except.bind] at hget
            unfold Coll.docsList
            rw [hds]
            cases hai : alistGet ds i with
            | none => rw [hai] at hget; simp at hget
            | some d0 =>
                rw [hai] at hget
                simp only [Except.ok.injEq] at hget
                show alistGet ds i = some d
                rw [hai, hget]
      · rw [hset, renderObj]
        rw [show kalistGet (kalistSet hp cNew (.dictO es)) cNew =
          some (.dictO es) from by rw [kalistGet_kalistSet, if_pos rfl]]
        show Option.map Val.dict
          (renderAddrEntries (kalistSet hp cNew (.dictO es)) f es) = some v
        cases hES : renderAddrEntries hp f es with
        | none => rw [hES] at hr; exact absurd hr (by simp)
        | some ves =>
            rw [(render_set_fresh hp cNew (.dictO es) hNew f).2.2 es ves hES]
            rw [hES] at hr
            exact hr
      · rw [hset]
        unfold heapSet
        rw [kalistSet_kalistSet_same]
        exact (render_set_fresh hp cNew o hNew (f + 1)).1 a v hr'

/-- **C5**: `replace_one` with the filter `{primary_key: id}` replaces the
document in place but falls through without a `return`, yielding `None`
instead of the affected id its docstring and the spec promise. -/
theorem C5_replace_one_pk_returns_none :
    (Coll.replaceOne oneDocColl (.dict [("_id", .str "a")])
        [("k", .int 2)] false "u").map
      (fun p => (alistGet p.1.docsList "a", p.2)) =
    .ok (some [("k", .int 2), ("_id", .str "a")], none) := by
  decide

/-- Witness for `C4_get_shallow_copy` at the concrete heap `c4Heap`: the
document at address `0` is copied to the fresh address `3`; re-binding
address `3` does not change what address `0` renders to. -/
theorem C4_get_shallow_copy_witness :
    alistGet c4Coll.docsList "a" =
      some [("_id", .str "a"), ("x", .dict [("y", .int 1)])] ∧
    renderObj (shallowCopyAt c4Heap 0 3) 3 3 =
      some (.dict [("_id", .str "a"), ("x", .dict [("y", .int 1)])]) ∧
    renderObj (heapSet (shallowCopyAt c4Heap 0 3) 3 (.scalarO .null)) 3 0 =
      some (.dict [("_id", .str "a"), ("x", .dict [("y", .int 1)])]) :=
  C4_get_shallow_copy c4Coll "a"
    [("_id", .str "a"), ("x", .dict [("y", .int 1)])] c4Heap 0 3 3
    [("_id", 10), ("x", 1)]
    (.dict [("_id", .str "a"), ("x", .dict [("y", .int 1)])])
    (.scalarO .null) (by decide) (by decide) (by decide)
    (by simp [renderObj, renderAddrs, renderAddrEntries, c4Heap, kalistGet])

/-- Counterexample to the deep-copy half of C4: mutating the *nested*
mapping reachable through the copy (the object at address `1`, the copy's
`"x"` value) changes what the stored document at address `0` renders to —
the spec's "mutating any part of the returned value leaves the collection's
stored document unchanged" fails. -/
theorem C4_deep_mutation_counterexample :
    Coll.getItem c4Coll "a" =
      .ok [("_id", .str "a"), ("x", .dict [("y", .int 1)])] ∧
    renderObj c4Heap 3 0 =
      some (.dict [("_id", .str "a"), ("x", .dict [("y", .int 1)])]) ∧
    renderObj (heapSet (shallowCopyAt c4Heap 0 3) 1 (.dictO [("y", 4)])) 3 3 =
      some (.dict [("_id", .str "a"), ("x", .dict [("y", .int 99)])]) ∧
    renderObj (heapSet (shallowCopyAt c4Heap 0 3) 1 (.dictO [("y", 4)])) 3 0 =
      some (.dict [("_id", .str "a"), ("x", .dict [("y", .int 99)])]) := by
  refine ⟨by decide, ?_, ?_, ?_⟩ <;>
    simp [renderObj, renderAddrs, renderAddrEntries, c4Heap, heapSet,
      shallowCopyAt, kalistGet, kalistSet]

/-- **C6** (amended): for the order operators `$gt`, `$gte`, `$lt`, `$lte`,
when the argument is comparable with every key of the index the lookup
returns the union of the buckets whose key passes the comparison; but when
*any* key of the index is incomparable with the argument the whole lookup
raises `TypeError` (Python's `operator.gt` and friends on mixed types) —
it does not treat the incomparable key as false. -/
theorem C6_comparison_scan (idx : Index) (op : String) (arg : Val)
    (hop : op = "$gt" ∨ op = "$gte" ∨ op = "$lt" ∨ op = "$lte") :
    ((∀ e ∈ idx, (iKeyCompare e.1 arg).isSome) →
      findWithIndexOperator idx op arg = .ok
        ((idx.filter fun e =>
            match iKeyCompare e.1 arg with
            | some ord => cmpTest op ord
            | none => false).foldr (fun e s => e.2 ∪ s) ∅)) ∧
    ((∃ e ∈ idx, iKeyCompare e.1 arg = none) →
      findWithIndexOperator idx op arg = .error .typeError) := by
  have hdisp : ∀ k, opApply op k arg =
      (match iKeyCompare k arg with
       | some ord => .ok (cmpTest op ord)
       | none => .error .typeError) := by
    intro k
    rcases hop with rfl | rfl | rfl | rfl <;> simp [opApply]
  unfold findWithIndexOperator
  constructor
  · induction idx with
    | nil => intro _; simp [scanIndex]
    | cons e rest ih =>
        intro hall
        obtain ⟨k, g⟩ := e
        have hk := hall (k, g) (by simp)
        obtain ⟨ord, hord⟩ := Option.isSome_iff_exists.mp hk
        have hrest := ih fun e he => hall e (by simp [he])
        rw [scanIndex]
        simp only [Bind.bind, Except.bind]
        rw [hdisp k]
        simp only at hord
        rw [hord]
        simp only
        rw [hrest]
        simp only [List.filter]
        rw [show (match iKeyCompare (k, g).1 arg with
            | some ord => cmpTest op ord
            | none => false) = cmpTest op ord from by rw [hord]]
        cases hc : cmpTest op ord with
        | true => simp [List.foldr]
        | false => simp [List.foldr]
  · induction idx with
    | nil =>
        intro hex
        obtain ⟨e0, he0, _⟩ := hex
        simp at he0
    | cons e rest ih =>
        intro hex
        obtain ⟨k, g⟩ := e
        rw [scanIndex]
        simp only [Bind.bind, Except.bind]
        rw [hdisp k]
        cases hiK : iKeyCompare k arg with
        | none => rfl
        | some ord =>
            simp only
            obtain ⟨e0, he0, hnone⟩ := hex
            rcases List.mem_cons.mp he0 with rfl | hmem
            · simp only at hnone
              rw [hiK] at hnone
              exact absurd hnone (by simp)
            · rw [ih ⟨e0, hmem, hnone⟩]

/-- Witness for `C6_comparison_scan` on an all-integer index with `$gt 2`:
the comparable half returns the bucket of the key `5`; instantiating the
incomparable half is vacuous here (no key is incomparable). -/
theorem C6_comparison_scan_witness :
    ((∀ e ∈ ([(.val (.int 1), {"a"}), (.val (.int 5), {"b"})] : Index),
        (iKeyCompare e.1 (.int 2)).isSome) →
      findWithIndexOperator [(.val (.int 1), {"a"}), (.val (.int 5), {"b"})]
          "$gt" (.int 2) = .ok
        ((([(.val (.int 1), {"a"}), (.val (.int 5), {"b"})] : Index).filter
            fun e =>
            match iKeyCompare e.1 (.int 2) with
            | some ord => cmpTest "$gt" ord
            | none => false).foldr (fun e s => e.2 ∪ s) ∅)) ∧
    ((∃ e ∈ ([(.val (.int 1), {"a"}), (.val (.int 5), {"b"})] : Index),
        iKeyCompare e.1 (.int 2) = none) →
      findWithIndexOperator [(.val (.int 1), {"a"}), (.val (.int 5), {"b"})]
          "$gt" (.int 2) = .error .typeError) :=
  C6_comparison_scan [(.val (.int 1), {"a"}), (.val (.int 5), {"b"})]
    "$gt" (.int 2) (by decide)

/-- Counterexample to C6 as stated: scanning a string-keyed index with a
numeric `$gt` argument raises `TypeError` instead of treating the
incomparable key as false. -/
theorem C6_incomparable_counterexample :
    findWithIndexOperator [(.val (.str "s"), {"a"})] "$gt" (.int 0) =
      .error .typeError := by
  decide

/-- **C7** (amended): `_valid_filter` rejects a bare list only at the very
top level of the filter; a list directly under a field key passes
validation (the mapping recursion lowers `top` to false), so such a filter
reaches execution as a tuple-encoded equality query instead of failing
with a user error. -/
theorem C7_valid_filter_top_only (k : String) (xs : List Val)
    (es : List (String × Val)) :
    validFilter (.list xs) true = false ∧
    validFilter (.dict ((k, .list xs) :: es)) true = validFilterEntries es ∧
    checkFilter (some (.dict ((k, .list xs) :: es))) =
      (if validFilterEntries es then .ok () else .error .valueError) := by
  exact ⟨rfl, rfl, rfl⟩

/-- Counterexample to C7 as stated: the filter `{"a": [1, 2]}` (a field
mapped to a bare list) passes validation and `find` executes it as a
tuple-equality query, returning the matching document instead of raising a
user error before execution. -/
theorem C7_field_list_counterexample :
    validFilter (.dict [("a", .list [.int 1, .int 2])]) true = true ∧
    checkFilter (some (normalize (.dict [("a", .list [.int 1, .int 2])]))) =
      .ok () ∧
    Coll.findIds c7Coll (some (.dict [("a", .list [.int 1, .int 2])])) 0 =
      .ok (c7CollA, {"a1"}) := by
  refine ⟨by decide, by decide, ?_⟩
  have h1 : findResult c7Coll (.dict [("a", .list [.int 1, .int 2])]) =
      .ok (c7CollA, {"a1"}) := by
    rw [findResult_eval_dict _ _ (by simp)]
    rw [show alistGet [("a", Val.list [Val.int 1, Val.int 2])] c7Coll.pk =
      none from by decide]
    rw [show pkShortCircuit c7Coll none = .ok none from rfl]
    rw [show traverseFilterEntries (popResidue c7Coll.pk
        [("a", Val.list [Val.int 1, Val.int 2])]) =
      [("a", .tup [.int 1, .int 2])] from by decide]
    simp only [Bind.bind, Except.bind]
    rw [show findPairs c7Coll [("a", .tup [.int 1, .int 2])] none =
      .ok (c7CollA, .acc (some {"a1"})) from by decide]
    simp only
    rw [show alistGet (alistDel (alistDel (alistDel
        [("a", Val.list [Val.int 1, Val.int 2])] c7Coll.pk) "$or") "$and")
        "$not" = none from by decide]
    rw [notPhase_none]
    rw [show alistGet (alistDel (alistDel
        [("a", Val.list [Val.int 1, Val.int 2])] c7Coll.pk) "$or") "$and" =
      none from by decide]
    rw [show alistGet (alistDel [("a", Val.list [Val.int 1, Val.int 2])]
        c7Coll.pk) "$or" = none from by decide]
    simp only [Bind.bind, Except.bind, andPhase_none, orPhase_none]
  exact @findIds_of_findResult c7Coll c7CollA
    (Val.dict [("a", Val.list [Val.int 1, Val.int 2])]) {"a1"}
    [("a1", [("_id", Val.str "a1"), ("a", Val.list [Val.int 1, Val.int 2])])]
    1 (by decide) (by decide) (by decide) (by decide)
    (by rw [show normalize (Val.dict [("a", Val.list [Val.int 1, Val.int 2])])
        = Val.dict [("a", Val.list [Val.int 1, Val.int 2])] from by decide]
        exact h1)

/-- **C8**: `$or` is the union of the sub-filter results.  If `find(f)`
answers `rf` (leaving state `c1`) and `find(g)` on that state answers `rg`
(leaving `c2`), then `find({"$or": [f, g]})` answers `rf ∪ rg` and leaves
`c2` — provided the collection's primary key is not literally `"$or"`, in
which case the composite filter's key would be popped as a primary id. -/
theorem C8_or_union (c c1 c2 : Coll) (f g : Val) (rf rg : Finset String)
    (hpk : c.pk ≠ "$or")
    (hf : c.findIds (some f) 0 = .ok (c1, rf))
    (hg : c1.findIds (some g) 0 = .ok (c2, rg)) :
    c.findIds (some (.dict [("$or", .list [f, g])])) 0 = .ok (c2, rf ∪ rg) := by
  obtain ⟨hdne, hf'⟩ := findIds_findResult hf
  obtain ⟨_, hg'⟩ := findIds_findResult hg
  have hno : ("$or" : String) ≠ c.pk := fun he => hpk he.symm
  cases hds : c.docs? with
  | none => exact absurd hds hdne
  | some ds =>
      unfold Coll.findIds
      rw [show c.assertOpen = .ok ds from by unfold Coll.assertOpen; rw [hds]]
      simp only [Bind.bind, Except.bind, Option.map]
      rw [show normalize (.dict [("$or", .list [f, g])]) =
        .dict [("$or", .list [normalize f, normalize g])] from by
          simp [normalize, normalizeEntries, normalizeList]]
      rw [show checkFilter (some (Val.dict
          [("$or", .list [normalize f, normalize g])])) = .ok () from rfl]
      simp only
      rw [show pyLen (Val.dict [("$or", .list [normalize f, normalize g])]) =
        .ok 1 from rfl]
      simp only
      rw [if_neg (by decide)]
      have hdel1 : alistDel [("$or", Val.list [normalize f, normalize g])]
          c.pk = [("$or", Val.list [normalize f, normalize g])] := by
        simp [alistDel, hno]
      have hdel2 : alistDel [("$or", Val.list [normalize f, normalize g])]
          "$or" = ([] : List (String × Val)) := by
        simp [alistDel]
      rw [findResult_eval_dict _ _ (by simp)]
      rw [show alistGet [("$or", Val.list [normalize f, normalize g])] c.pk =
        none from by simp [alistGet, hno]]
      rw [show pkShortCircuit c none = .ok none from rfl]
      rw [show traverseFilterEntries (popResidue c.pk
          [("$or", Val.list [normalize f, normalize g])]) = [] from by
        unfold popResidue
        rw [hdel1, hdel2]
        rfl]
      simp only [Bind.bind, Except.bind, findPairs]
      rw [show alistGet (alistDel (alistDel (alistDel
          [("$or", Val.list [normalize f, normalize g])] c.pk) "$or") "$and")
          "$not" = none from by rw [hdel1, hdel2]; rfl]
      rw [notPhase_none]
      rw [show alistGet (alistDel (alistDel
          [("$or", Val.list [normalize f, normalize g])] c.pk) "$or") "$and" =
        none from by rw [hdel1, hdel2]; rfl]
      rw [show alistGet (alistDel
          [("$or", Val.list [normalize f, normalize g])] c.pk) "$or" =
        some (.list [normalize f, normalize g]) from by
          rw [hdel1]; simp [alistGet]]
      simp only [Bind.bind, Except.bind, andPhase_none]
      rw [orPhase_list_cons]
      simp only [Bind.bind, Except.bind]
      rw [findResultList_cons]
      simp only [Bind.bind, Except.bind]
      rw [hf']
      simp only
      rw [findResultList_cons]
      simp only [Bind.bind, Except.bind]
      rw [hg']
      simp only
      rw [findResultList_nil]
      simp only [reduceResult, List.foldl]
      simp [limitResult]

/-- Witness for `C8_or_union`: two empty sub-filters on the one-document
collection; each `find` answers `{"a"}` without touching the state, and the
`$or` of the two answers the union. -/
theorem C8_or_union_witness :
    Coll.findIds oneDocColl
        (some (.dict [("$or", .list [.dict [], .dict []])])) 0 =
      .ok (oneDocColl, {"a"} ∪ {"a"}) :=
  C8_or_union oneDocColl oneDocColl oneDocColl (.dict []) (.dict [])
    {"a"} {"a"} (by decide) (by decide) (by decide)

/-- **C9** (amended): once `close` has run, the document store and file
handle are gone; `close` again is an idempotent no-op, and the operations
that call `_assert_open` fail with the closed-handle `RuntimeError` — but
`__contains__` (no `_assert_open`; `_id in None`) raises `TypeError`,
`clear` (no `_assert_open`; `None.clear()`) raises `AttributeError`, and
`update` with an empty sequence never reaches `__setitem__` and silently
succeeds. -/
theorem C9_closed_behavior (c c' : Coll) (hfile : c.file?.isSome = true)
    (h : c.close = .ok c') :
    c'.docs? = none ∧ c'.file? = none ∧
    c'.close = .ok c' ∧
    (∀ i, c'.contains i = .error .typeError) ∧
    c'.clear = .error .attributeError ∧
    c'.length = .error .closedHandle ∧
    (∀ i, c'.getItem i = .error .closedHandle) ∧
    (∀ i d, c'.setItem i d = .error .closedHandle) ∧
    (∀ d u, c'.insertOne d u = .error .closedHandle) ∧
    (∀ i, c'.delItem i = .error .closedHandle) ∧
    (∀ fl l, c'.findIds fl l = .error .closedHandle) ∧
    c'.dumpString = .error .closedHandle ∧
    c'.flush = .error .closedHandle ∧
    (∀ dcs, c'.update dcs =
      if dcs = [] then .ok (c', []) else .error .closedHandle) := by
  cases hcf : c.file? with
  | none => rw [hcf] at hfile; simp at hfile
  | some fs =>
      unfold Coll.close at h
      rw [hcf] at h
      cases hfl : c.flush with
      | error e => rw [hfl] at h; simp at h
      | ok c1 =>
          rw [hfl] at h
          simp only [Except.ok.injEq] at h
          subst h
          refine ⟨rfl, rfl, ?_, ?_, ?_, ?_, ?_, ?_, ?_, ?_, ?_, ?_, ?_, ?_⟩
          · unfold Coll.close
            rfl
          · intro i
            unfold Coll.contains
            rfl
          · unfold Coll.clear
            rfl
          · unfold Coll.length Coll.assertOpen
            rfl
          · intro i
            unfold Coll.getItem Coll.assertOpen
            rfl
          · intro i d
            unfold Coll.setItem Coll.assertOpen
            rfl
          · intro d u
            unfold Coll.insertOne Coll.assertOpen
            rfl
          · intro i
            unfold Coll.delItem Coll.assertOpen
            rfl
          · intro fl l
            unfold Coll.findIds Coll.assertOpen
            rfl
          · unfold Coll.dumpString Coll.assertOpen
            rfl
          · unfold Coll.flush Coll.assertOpen
            rfl
          · intro dcs
            cases dcs with
            | nil => simp [Coll.update]
            | cons p rest =>
                obtain ⟨d0, u0⟩ := p
                rw [if_neg (by simp)]
                unfold Coll.update Coll.assertOpen
                rfl

/-- Witness for `C9_closed_behavior`: closing a fresh empty collection
yields `c9Closed`, on which every operation behaves as stated. -/
theorem C9_closed_behavior_witness :
    c9Closed.docs? = none ∧ c9Closed.file? = none ∧
    c9Closed.close = .ok c9Closed ∧
    (∀ i, c9Closed.contains i = .error .typeError) ∧
    c9Closed.clear = .error .attributeError ∧
    c9Closed.length = .error .closedHandle ∧
    (∀ i, c9Closed.getItem i = .error .closedHandle) ∧
    (∀ i d, c9Closed.setItem i d = .error .closedHandle) ∧
    (∀ d u, c9Closed.insertOne d u = .error .closedHandle) ∧
    (∀ i, c9Closed.delItem i = .error .closedHandle) ∧
    (∀ fl l, c9Closed.findIds fl l = .error .closedHandle) ∧
    c9Closed.dumpString = .error .closedHandle ∧
    c9Closed.flush = .error .closedHandle ∧
    (∀ dcs, c9Closed.update dcs =
      if dcs = [] then .ok (c9Closed, []) else .error .closedHandle) :=
  C9_closed_behavior (Coll.empty "_id") c9Closed (by decide) (by decide)

/-- Counterexample to C9 as stated ("every subsequent operation fails with
the closed-handle error"): on the closed state, `__contains__` raises
`TypeError` and `clear` raises `AttributeError` — neither is the
closed-handle `RuntimeError`. -/
theorem C9_closed_ops_counterexample :
    (Coll.empty "_id").close = .ok c9Closed ∧
    c9Closed.contains "a" = .error .typeError ∧
    c9Closed.clear = .error .attributeError ∧
    Coll.contains c9Closed "a" ≠ .error .closedHandle ∧
    Coll.clear c9Closed ≠ .error .closedHandle := by
  decide

/-- **C10**: `doc.setdefault(primary_key, ...)` mutates the caller's
document.  When the argument document lacks the primary-key field,
`__setitem__` hands back the document extended with `(pk, _id)` appended,
and `insert_one` (and the head step of `update`) with `(pk, uuid)`
appended; a document already carrying the primary key is handed back
unchanged. -/
theorem C10_setdefault_mutation (c : Coll) (doc : Doc) (i uuid : String) :
    (alistGet doc c.pk = none →
      (∀ c' d', c.setItem i doc = .ok (c', d') →
        d' = doc ++ [(c.pk, .str i)]) ∧
      (∀ c' j d', c.insertOne doc uuid = .ok (c', j, d') →
        j = uuid ∧ d' = doc ++ [(c.pk, .str uuid)]) ∧
      (∀ rest c' ds', c.update ((doc, uuid) :: rest) = .ok (c', ds') →
        ∃ tl, ds' = (doc ++ [(c.pk, .str uuid)]) :: tl)) ∧
    ((∃ w, alistGet doc c.pk = some w) →
      (∀ c' d', c.setItem i doc = .ok (c', d') → d' = doc) ∧
      (∀ c' j d', c.insertOne doc uuid = .ok (c', j, d') → d' = doc) ∧
      (∀ rest c' ds', c.update ((doc, uuid) :: rest) = .ok (c', ds') →
        ∃ tl, ds' = doc :: tl)) := by
  constructor
  · intro hmiss
    have hsd : setdefault doc c.pk (.str i) =
        (doc ++ [(c.pk, .str i)], .str i) := by
      unfold setdefault
      rw [hmiss]
    have hsdu : setdefault doc c.pk (.str uuid) =
        (doc ++ [(c.pk, .str uuid)], .str uuid) := by
      unfold setdefault
      rw [hmiss]
    have hsd2 : setdefault (doc ++ [(c.pk, .str uuid)]) c.pk (.str uuid) =
        (doc ++ [(c.pk, .str uuid)], .str uuid) := by
      unfold setdefault
      rw [alistGet_append, hmiss]
      simp [alistGet]
    refine ⟨?_, ?_, ?_⟩
    · intro c' d' h
      unfold Coll.setItem at h
      cases hds : c.docs? with
      | none =>
          rw [show c.assertOpen = .error .closedHandle from by
            unfold Coll.assertOpen; rw [hds]] at h
          simp [Bind.bind, Except.bind] at h
      | some ds =>
          rw [show c.assertOpen = .ok ds from by
            unfold Coll.assertOpen; rw [hds]] at h
          simp only [Bind.bind, Except.bind, hsd] at h
          simp only [if_true] at h
          simp only [Except.ok.injEq, Prod.mk.injEq] at h
          exact h.2.symm
    · intro c' j d' h
      unfold Coll.insertOne at h
      cases hds : c.docs? with
      | none =>
          rw [show c.assertOpen = .error .closedHandle from by
            unfold Coll.assertOpen; rw [hds]] at h
          simp [Bind.bind, Except.bind] at h
      | some ds =>
          rw [show c.assertOpen = .ok ds from by
            unfold Coll.assertOpen; rw [hds]] at h
          simp only [Bind.bind, Except.bind, hsdu] at h
          unfold Coll.setItem at h
          rw [show c.assertOpen = .ok ds from by
            unfold Coll.assertOpen; rw [hds]] at h
          simp only [Bind.bind, Except.bind, hsd2] at h
          simp only [if_true] at h
          simp only [Except.ok.injEq, Prod.mk.injEq] at h
          exact ⟨h.2.1.symm, h.2.2.symm⟩
    · intro rest c' ds' h
      unfold Coll.update at h
      simp only [Bind.bind, Except.bind, hsdu] at h
      cases hds : c.docs? with
      | none =>
          rw [show c.assertOpen = .error .closedHandle from by
            unfold Coll.assertOpen; rw [hds]] at h
          simp at h
      | some ds =>
          rw [show c.assertOpen = .ok ds from by
            unfold Coll.assertOpen; rw [hds]] at h
          simp only at h
          unfold Coll.setItem at h
          rw [show c.assertOpen = .ok ds from by
            unfold Coll.assertOpen; rw [hds]] at h
          simp only [Bind.bind, Except.bind, hsd2] at h
          simp only [if_true] at h
          cases hup : Coll.update { c with
              docs? := some (alistSet ds uuid
                (normalizeDoc (doc ++ [(c.pk, .str uuid)]))),
              dirty := dirtyAdd c.dirty uuid,
              requiresFlush := true } rest with
          | error e => rw [hup] at h; simp at h
          | ok p =>
              obtain ⟨c2, docs2⟩ := p
              rw [hup] at h
              simp only [Except.ok.injEq, Prod.mk.injEq] at h
              exact ⟨docs2, h.2.symm⟩
  · intro hsome
    obtain ⟨w, hw⟩ := hsome
    have hsd : setdefault doc c.pk (.str i) = (doc, w) := by
      unfold setdefault
      rw [hw]
    have hsdu : setdefault doc c.pk (.str uuid) = (doc, w) := by
      unfold setdefault
      rw [hw]
    refine ⟨?_, ?_, ?_⟩
    · intro c' d' h
      unfold Coll.setItem at h
      cases hds : c.docs? with
      | none =>
          rw [show c.assertOpen = .error .closedHandle from by
            unfold Coll.assertOpen; rw [hds]] at h
          simp [Bind.bind, Except.bind] at h
      | some ds =>
          rw [show c.assertOpen = .ok ds from by
            unfold Coll.assertOpen; rw [hds]] at h
          simp only [Bind.bind, Except.bind, hsd] at h
          by_cases hwi : w = .str i
          · rw [if_pos hwi] at h
            simp only [Except.ok.injEq, Prod.mk.injEq] at h
            exact h.2.symm
          · rw [if_neg hwi] at h
            simp at h
    · intro c' j d' h
      unfold Coll.insertOne at h
      cases hds : c.docs? with
      | none =>
          rw [show c.assertOpen = .error .closedHandle from by
            unfold Coll.assertOpen; rw [hds]] at h
          simp [Bind.bind, Except.bind] at h
      | some ds =>
          rw [show c.assertOpen = .ok ds from by
            unfold Coll.assertOpen; rw [hds]] at h
          simp only [Bind.bind, Except.bind, hsdu] at h
          cases w with
          | str j0 =>
              simp only at h
              unfold Coll.setItem at h
              rw [show c.assertOpen = .ok ds from by
                unfold Coll.assertOpen; rw [hds]] at h
              simp only [Bind.bind, Except.bind,
                show setdefault doc c.pk (.str j0) = (doc, .str j0) from by
                  unfold setdefault; rw [hw]] at h
              simp only [if_true] at h
              simp only [Except.ok.injEq, Prod.mk.injEq] at h
              exact h.2.2.symm
          | null => simp at h
          | bool b => simp at h
          | int n => simp at h
          | list xs => simp at h
          | tup xs => simp at h
          | dict es => simp at h
    · intro rest c' ds' h
      unfold Coll.update at h
      simp only [Bind.bind, Except.bind, hsdu] at h
      cases hds : c.docs? with
      | none =>
          rw [show c.assertOpen = .error .closedHandle from by
            unfold Coll.assertOpen; rw [hds]] at h
          simp at h
      | some ds =>
          rw [show c.assertOpen = .ok ds from by
            unfold Coll.assertOpen; rw [hds]] at h
          simp only at h
          cases w with
          | str j0 =>
              simp only at h
              unfold Coll.setItem at h
              rw [show c.assertOpen = .ok ds from by
                unfold Coll.assertOpen; rw [hds]] at h
              simp only [Bind.bind, Except.bind,
                show setdefault doc c.pk (.str j0) = (doc, .str j0) from by
                  unfold setdefault; rw [hw]] at h
              simp only [if_true] at h
              cases hup : Coll.update { c with
                  docs? := some (alistSet ds j0 (normalizeDoc doc)),
                  dirty := dirtyAdd c.dirty j0,
                  requiresFlush := true } rest with
              | error e => rw [hup] at h; simp at h
              | ok p =>
                  obtain ⟨c2, docs2⟩ := p
                  rw [hup] at h
                  simp only [Except.ok.injEq, Prod.mk.injEq] at h
                  exact ⟨docs2, h.2.symm⟩
          | null => simp at h
          | bool b => simp at h
          | int n => simp at h
          | list xs => simp at h
          | tup xs => simp at h
          | dict es => simp at h

end Signac
